import Mathlib

/-!
# Concurrent multipart upload (`uploadConcurrent` of `main.go`)

A shallow embedding of the upload engine of `main.go`:

* the read loop (lines 118-152), as a function of the reader it calls;
* the commit step (lines 156-173): `sort.Slice` on `etags`, then
  `CompleteMultipartUpload`;
* the three kinds of goroutine (main, upload workers, collector) with their four
  channels, as a deterministic `step` function driven by a scheduler choice.

Go's `int64` counter `partNumber` is an `Int` wrapped to 64 bits on increment.
Library calls (`file.Read`, `sort.Slice`, the S3 client) are not part of the
program; each is represented by a definition or a parameter whose doc comment
says so.
-/

namespace UploadS3

/-! ## Data -/

/-- One byte of a file or of a buffer. -/
abbrev Byte := Fin 256

/-- Wrap-around of Go's `int64` arithmetic. -/
def wrapInt64 (x : Int) : Int := (x + 2 ^ 63) % 2 ^ 64 - 2 ^ 63

/-- The `err` result of `file.Read`: `nil`, `io.EOF`, or any other error. -/
inductive ReadErr where
  | nil
  | eof
  | other (msg : String)
  deriving DecidableEq

/-- What a call `file.Read(buf)` returns: the buffer as the call left it, and the pair
`(bytesRead, err)`. -/
structure ReadOut where
  buf : List Byte
  bytesRead : Nat
  err : ReadErr
  deriving DecidableEq

/-- A reader: given the buffer handed to `Read` and the reader's state, the result of the call
and the next state. In `main.go` the reader is the `*os.File` opened on `localPath`. -/
abbrev Reader (σ : Type) := List Byte → σ → ReadOut × σ

/-- The arguments of one `go func(buf []byte, pn int64)` of line 133: the slice
`buf[0:bytesRead]` and the value of `partNumber` at the time of the call. -/
structure Chunk where
  payload : List Byte
  pn : Int
  deriving DecidableEq

/-- How the read loop was left. -/
inductive LoopEnd where
  /-- `err == io.EOF`: `endRead <- struct{}{}` and `break`. -/
  | endRead
  /-- `err != nil`: `panic(err)`. -/
  | panicked (msg : String)
  /-- The loop is still running (the fuel of the model is spent). -/
  | running
  deriving DecidableEq

/-- The allocation `make([]byte, B)` of line 119, `B` being `1024 * 1024 * (*c)`:
a buffer of `B` zero bytes. -/
def makeBuf (B : Nat) : List Byte := List.replicate B 0

/-- The read loop of `uploadConcurrent` (lines 118-152), without the channel operations:
the chunks handed to upload workers, in dispatch order, and how the loop ended.
`fuel` bounds the number of iterations. -/
def readLoop {σ : Type} (B : Nat) (read : Reader σ) : Nat → σ → Int → List Chunk × LoopEnd
  | 0, _, _ => ([], .running)
  | fuel + 1, s, partNumber =>
    let buf := makeBuf B
    let (out, s') := read buf s
    match out.err with
    | .eof => ([], .endRead)
    | .other msg => ([], .panicked msg)
    | .nil =>
      let rest := readLoop B read fuel s' (wrapInt64 (partNumber + 1))
      (⟨out.buf.take out.bytesRead, partNumber⟩ :: rest.1, rest.2)

/-- The first value of `partNumber` (line 50). -/
def firstPartNumber : Int := 1

/-! ## The file reader -/

/-- Behaviour of `(*os.File).Read` on a regular file whose unread content is `rest`
(library code, as documented for package `os`): a zero-length buffer gives `(0, nil)`;
at end of file the call gives `(0, io.EOF)`; otherwise it copies
`min(len(buf), len(rest))` bytes to the front of the buffer and returns that count with a
`nil` error. -/
def osFileRead : Reader (List Byte) := fun buf rest =>
  if buf.length = 0 then (⟨buf, 0, .nil⟩, rest)
  else if rest.length = 0 then (⟨buf, 0, .eof⟩, rest)
  else
    let n := min buf.length rest.length
    (⟨rest.take n ++ buf.drop n, n, .nil⟩, rest.drop n)

/-- The number of chunks of a file of `S` bytes cut in blocks of `B` bytes: `ceil(S/B)`. -/
def ceilDiv (S B : Nat) : Nat := (S + B - 1) / B

/-! ## Sorting and the commit step -/

/-- An `*s3.CompletedPart` as line 147 builds it: the ETag of the `UploadPart` result and the
part number. -/
structure CompletedPart where
  ETag : String
  PartNumber : Int
  deriving DecidableEq

/-- The `less` closure handed to `sort.Slice` (line 157):
`*etags[i].PartNumber < *etags[j].PartNumber`. -/
def lessPart (x y : CompletedPart) : Bool := decide (x.PartNumber < y.PartNumber)

/-- Insertion of `x` in a list ordered by `less`: in front of the first element that `x` is
less than. -/
def insertLess {α : Type} (less : α → α → Bool) (x : α) : List α → List α
  | [] => [x]
  | y :: ys => if less x y then x :: y :: ys else y :: insertLess less x ys

/-- The call `sort.Slice(s, less)` (library code). The library promises a slice sorted by
`less` holding the same elements, with no promise on the order of elements that `less` does not
separate; an insertion sort stands for it here. -/
def sortSlice {α : Type} (less : α → α → Bool) (s : List α) : List α :=
  s.foldl (fun acc x => insertLess less x acc) []

/-- An `*s3.CompleteMultipartUploadInput` (lines 160-167). -/
structure CompleteMultipartUploadInput where
  Bucket : String
  Key : String
  Parts : List CompletedPart
  UploadId : String
  deriving DecidableEq

/-- An `*s3.UploadPartInput` (lines 135-141). -/
structure UploadPartInput where
  Body : List Byte
  Bucket : String
  Key : String
  PartNumber : Int
  UploadId : String
  deriving DecidableEq

/-- An `*s3.CreateMultipartUploadInput` (lines 62-65). -/
structure CreateMultipartUploadInput where
  Bucket : String
  Key : String
  deriving DecidableEq

/-- What `uploadConcurrent` reads of an `*s3.CompleteMultipartUploadOutput` (line 175). -/
structure CompleteMultipartUploadOutput where
  Key : String
  Bucket : String
  ETag : String
  deriving DecidableEq

/-- Everything outside the program that `uploadConcurrent` calls. Each field gives the result
of a call as a function of its arguments; an `Except.error` is a non-nil `err`. -/
structure Env (σ : Type) where
  /-- The value of `1024 * 1024 * (*c)`, the buffer length. -/
  B : Nat
  /-- The function `filepath.Base`. -/
  Base : String → String
  /-- The call `session.NewSession()`. -/
  NewSession : Except String Unit
  /-- The call `s3client.CreateMultipartUpload`, returning `mpu.UploadId`. -/
  CreateMultipartUpload : CreateMultipartUploadInput → Except String String
  /-- The call `os.Open(localPath)`, returning the state of the opened reader. -/
  Open : String → Except String σ
  /-- The method `file.Read`. -/
  Read : Reader σ
  /-- The call `s3client.UploadPart`, returning `result.ETag`. -/
  UploadPart : UploadPartInput → Except String String
  /-- The call `s3client.CompleteMultipartUpload`. -/
  CompleteMultipartUpload :
    CompleteMultipartUploadInput → Except String CompleteMultipartUploadOutput

/-- The reasons for which the process dies. -/
inductive Panic where
  /-- Line 57: `session.NewSession` failed. -/
  | newSession (msg : String)
  /-- Line 71: `CreateMultipartUpload` failed. -/
  | createMultipartUpload (msg : String)
  /-- Line 76: `os.Open` failed. -/
  | openFile (msg : String)
  /-- Line 127: `file.Read` failed with an error other than `io.EOF`. -/
  | read (msg : String)
  /-- Line 145: `UploadPart` failed for the part of the given number. -/
  | uploadPart (pn : Int) (msg : String)
  /-- Line 172: `CompleteMultipartUpload` failed. -/
  | completeMultipartUpload (msg : String)
  /-- A send on a channel that `cleanup` has closed (a runtime panic). -/
  | sendOnClosedChannel
  deriving DecidableEq

/-- The trace of the commit step: the calls of `CompleteMultipartUpload` it made and its
result, the output on success or the panic. -/
structure CommitTrace where
  calls : List CompleteMultipartUploadInput
  result : Except Panic CompleteMultipartUploadOutput

/-- The commit step of `uploadConcurrent` (lines 156-173): `sort.Slice` on `etags`, the
construction of `cmpuInput`, the call of `CompleteMultipartUpload`, and `panic(err)` on a
non-nil error. -/
def commitStep {σ : Type} (env : Env σ) (bucket keyName uploadId : String)
    (etags : List CompletedPart) : CommitTrace :=
  let etags := sortSlice lessPart etags
  let cmpuInput : CompleteMultipartUploadInput :=
    { Bucket := bucket, Key := keyName, Parts := etags, UploadId := uploadId }
  match env.CompleteMultipartUpload cmpuInput with
  | .error msg => ⟨[cmpuInput], .error (.completeMultipartUpload msg)⟩
  | .ok result => ⟨[cmpuInput], .ok result⟩

/-! ## Goroutines and channels -/

/-- The capacity of the channel `workersCtrl` (line 40). -/
def maxWorkers : Nat := 5

/-- The values fixed before the goroutines start: `bucket`, `keyName` and `mpu.UploadId`. -/
structure Session where
  bucket : String
  keyName : String
  uploadId : String
  deriving DecidableEq

/-- Where the main goroutine stands in `uploadConcurrent`. -/
inductive MainPc (σ : Type) where
  /-- Lines 119-120: at the top of the loop, about to allocate `buf` and call `file.Read`. -/
  | reading (s : σ) (partNumber : Int)
  /-- Line 123: sending on `endRead`. -/
  | sendEndRead
  /-- Line 131: sending on `workersCtrl`, with `buf[0:bytesRead]` in hand. -/
  | acquire (s : σ) (partNumber : Int) (payload : List Byte)
  /-- Lines 133-151: about to start the upload worker and increment `partNumber`. -/
  | spawn (s : σ) (partNumber : Int) (payload : List Byte)
  /-- Line 154: receiving from `endUpload`. -/
  | waitEndUpload
  /-- Lines 156-169: about to sort `etags` and call `CompleteMultipartUpload`. -/
  | commit
  /-- Line 175: the call succeeded and `uploadConcurrent` returns. -/
  | returned (out : CompleteMultipartUploadOutput)
  deriving DecidableEq

/-- Where an upload worker (the goroutine of lines 133-149) stands. -/
inductive WorkerPc where
  /-- Lines 134-142: about to call `UploadPart`. -/
  | uploading
  /-- Lines 143-145: `UploadPart` returned an error; about to panic. -/
  | failed (msg : String)
  /-- Line 147: sending the `CompletedPart` with this ETag on `etagschan`. -/
  | sending (etag : String)
  /-- Line 148: about to add to `totalBytes`. -/
  | counting
  /-- The goroutine has ended. -/
  | exited
  deriving DecidableEq

/-- An upload worker: the arguments `buf` and `pn` it was started with, and where it stands. -/
structure Worker where
  buf : List Byte
  pn : Int
  pc : WorkerPc
  deriving DecidableEq

/-- Where the collector (the goroutine of lines 89-115) stands. -/
inductive CollectorPc where
  /-- Line 99: waiting in `select` for `etagschan` or `endRead`. -/
  | select
  /-- Line 102: an etag was appended; receiving from `workersCtrl`. -/
  | release
  /-- Line 103: testing `done && len(workersCtrl) == 0`. -/
  | checkEtag
  /-- Line 108: `done` was set; testing `len(workersCtrl) == 0`. -/
  | checkEnd
  /-- Line 114: sending on `endUpload`. -/
  | signal
  /-- Lines 91-94: in the deferred `cleanup`, `closed` of the four channels closed so far. -/
  | cleanup (closed : Nat)
  /-- The goroutine has ended, the four channels closed. -/
  | exited
  deriving DecidableEq

/-- The state of the process while the goroutines of `uploadConcurrent` run. -/
structure State (σ : Type) where
  sess : Session
  main : MainPc σ
  workers : List Worker
  collector : CollectorPc
  /-- The collector's local variable `done`. -/
  done : Bool
  /-- The slice `etags`. -/
  etags : List CompletedPart
  /-- The number of elements in the channel `workersCtrl`. -/
  workersCtrl : Nat
  totalBytes : Int
  /-- The `UploadPart` calls made so far, oldest first. -/
  uploadCalls : List UploadPartInput
  /-- The `CompleteMultipartUpload` calls made so far. -/
  completeCalls : List CompleteMultipartUploadInput
  /-- The panic the process died of, if it did. -/
  crashed : Option Panic
  deriving DecidableEq

/-- The choice of the scheduler: which goroutine takes its next step. A communication on an
unbuffered channel is the step of its sender. -/
inductive Action where
  | main
  | worker (i : Nat)
  | collector
  deriving DecidableEq

/-- `close(workersCtrl)` (line 91) has run. -/
def workersCtrlClosed : CollectorPc → Bool
  | .cleanup closed => decide (1 ≤ closed)
  | .exited => true
  | _ => false

/-- `close(etagschan)` (line 92) has run. -/
def etagschanClosed : CollectorPc → Bool
  | .cleanup closed => decide (2 ≤ closed)
  | .exited => true
  | _ => false

/-- `close(endRead)` (line 93) has run. -/
def endReadClosed : CollectorPc → Bool
  | .cleanup closed => decide (3 ≤ closed)
  | .exited => true
  | _ => false

/-- `close(endUpload)` (line 94) has run. -/
def endUploadClosed : CollectorPc → Bool
  | .cleanup closed => decide (4 ≤ closed)
  | .exited => true
  | _ => false

/-- The `UploadPartInput` that a worker builds (lines 135-141). -/
def uploadPartInput (sess : Session) (w : Worker) : UploadPartInput :=
  { Body := w.buf, Bucket := sess.bucket, Key := sess.keyName, PartNumber := w.pn,
    UploadId := sess.uploadId }

/-- The part of `uploadConcurrent` before the goroutines start (lines 50-87): the state in
which they start, or the panic of a failed call. -/
def start {σ : Type} (env : Env σ) (localPath bucket : String) : Except Panic (State σ) :=
  let keyName := env.Base localPath
  match env.NewSession with
  | .error msg => .error (.newSession msg)
  | .ok _ =>
    match env.CreateMultipartUpload { Bucket := bucket, Key := keyName } with
    | .error msg => .error (.createMultipartUpload msg)
    | .ok uploadId =>
      match env.Open localPath with
      | .error msg => .error (.openFile msg)
      | .ok file =>
        .ok { sess := { bucket := bucket, keyName := keyName, uploadId := uploadId },
              main := .reading file firstPartNumber, workers := [], collector := .select,
              done := false, etags := [], workersCtrl := 0, totalBytes := 0,
              uploadCalls := [], completeCalls := [], crashed := none }

/-- A step of the main goroutine; `none` when it is blocked or has returned. -/
def stepMain {σ : Type} (env : Env σ) (st : State σ) : Option (State σ) :=
  match st.main with
  | .reading s partNumber =>
    let buf := makeBuf env.B
    let (out, s') := env.Read buf s
    match out.err with
    | .eof => some { st with main := .sendEndRead }
    | .other msg => some { st with crashed := some (.read msg) }
    | .nil => some { st with main := .acquire s' partNumber (out.buf.take out.bytesRead) }
  | .sendEndRead =>
    if endReadClosed st.collector then some { st with crashed := some .sendOnClosedChannel }
    else
      match st.collector with
      | .select => some { st with main := .waitEndUpload, collector := .checkEnd, done := true }
      | _ => none
  | .acquire s partNumber payload =>
    if workersCtrlClosed st.collector then some { st with crashed := some .sendOnClosedChannel }
    else if st.workersCtrl < maxWorkers then
      some { st with workersCtrl := st.workersCtrl + 1, main := .spawn s partNumber payload }
    else none
  | .spawn s partNumber payload =>
    some { st with
      workers := st.workers ++ [{ buf := payload, pn := partNumber, pc := .uploading }],
      main := .reading s (wrapInt64 (partNumber + 1)) }
  | .waitEndUpload =>
    if endUploadClosed st.collector then some { st with main := .commit } else none
  | .commit =>
    let t := commitStep env st.sess.bucket st.sess.keyName st.sess.uploadId st.etags
    match t.result with
    | .ok out => some { st with completeCalls := st.completeCalls ++ t.calls, main := .returned out }
    | .error p => some { st with completeCalls := st.completeCalls ++ t.calls, crashed := some p }
  | .returned _ => none

/-- A step of the upload worker started `i`-th (from 0); `none` when it is blocked, has ended
or was never started. -/
def stepWorker {σ : Type} (env : Env σ) (st : State σ) (i : Nat) : Option (State σ) :=
  match st.workers[i]? with
  | none => none
  | some w =>
    match w.pc with
    | .uploading =>
      let input := uploadPartInput st.sess w
      match env.UploadPart input with
      | .error msg =>
        some { st with workers := st.workers.set i { w with pc := .failed msg },
                       uploadCalls := st.uploadCalls ++ [input] }
      | .ok etag =>
        some { st with workers := st.workers.set i { w with pc := .sending etag },
                       uploadCalls := st.uploadCalls ++ [input] }
    | .failed msg => some { st with crashed := some (.uploadPart w.pn msg) }
    | .sending etag =>
      if etagschanClosed st.collector then some { st with crashed := some .sendOnClosedChannel }
      else
        match st.collector with
        | .select =>
          some { st with workers := st.workers.set i { w with pc := .counting },
                         etags := st.etags ++ [{ ETag := etag, PartNumber := w.pn }],
                         collector := .release }
        | _ => none
    | .counting =>
      some { st with workers := st.workers.set i { w with pc := .exited },
                     totalBytes := wrapInt64 (st.totalBytes + w.buf.length) }
    | .exited => none

/-- A step of the collector; `none` when it is blocked or has ended. -/
def stepCollector {σ : Type} (st : State σ) : Option (State σ) :=
  match st.collector with
  | .select => none
  | .release =>
    if 0 < st.workersCtrl then
      some { st with workersCtrl := st.workersCtrl - 1, collector := .checkEtag }
    else none
  | .checkEtag =>
    if st.done && st.workersCtrl == 0 then some { st with collector := .signal }
    else some { st with collector := .select }
  | .checkEnd =>
    if st.workersCtrl == 0 then some { st with collector := .signal }
    else some { st with collector := .select }
  | .signal =>
    match st.main with
    | .waitEndUpload => some { st with main := .commit, collector := .cleanup 0 }
    | _ => none
  | .cleanup closed =>
    if closed < 3 then some { st with collector := .cleanup (closed + 1) }
    else some { st with collector := .exited }
  | .exited => none

/-- The process is over: it panicked, or `uploadConcurrent` returned (and `main` with it). -/
def halted {σ : Type} (st : State σ) : Bool :=
  st.crashed.isSome ||
    match st.main with
    | .returned _ => true
    | _ => false

/-- One step of the process under the scheduler's choice `a`; `none` when the chosen goroutine
cannot move. -/
def step {σ : Type} (env : Env σ) (st : State σ) (a : Action) : Option (State σ) :=
  if halted st then none
  else
    match a with
    | .main => stepMain env st
    | .worker i => stepWorker env st i
    | .collector => stepCollector st

/-- The state after the steps of a schedule; `none` when one of them cannot be taken. -/
def run {σ : Type} (env : Env σ) : State σ → List Action → Option (State σ)
  | st, [] => some st
  | st, a :: rest =>
    match step env st a with
    | none => none
    | some st' => run env st' rest

/-- The worker's `CompletedPart` has been received by the collector. -/
def Worker.reported (w : Worker) : Bool :=
  match w.pc with
  | .counting => true
  | .exited => true
  | _ => false

/-- The number of upload workers started whose `CompletedPart` the collector has not received. -/
def inFlight {σ : Type} (st : State σ) : Nat :=
  st.workers.countP (fun w => !w.reported)

/-- The chunk a worker was started with. -/
def Worker.chunk (w : Worker) : Chunk := { payload := w.buf, pn := w.pn }

/-- The chunks dispatched so far: the arguments of the workers started, in order. -/
def dispatched {σ : Type} (st : State σ) : List Chunk :=
  st.workers.map Worker.chunk

/-- The contiguity condition of the specification on a part list in commit order: the part
numbers are exactly `1, 2, ..., N`. -/
def contiguous (parts : List CompletedPart) : Bool :=
  decide (parts.map CompletedPart.PartNumber =
    (List.range parts.length).map (fun (i : Nat) => (i : Int) + 1))

/-- An environment for concrete runs: every call succeeds, except `UploadPart` for the part
numbered `failPn` if one is given; the file holds `content` and is read in blocks of `B`
bytes. -/
def demoEnv (B : Nat) (content : List Byte) (failPn : Option Int) : Env (List Byte) :=
  { B := B
    Base := fun p => p
    NewSession := .ok ()
    CreateMultipartUpload := fun _ => .ok "upload-1"
    Open := fun _ => .ok content
    Read := osFileRead
    UploadPart := fun input =>
      if some input.PartNumber = failPn then .error "InternalError"
      else .ok (String.mk (input.Body.map (fun b => Char.ofNat b.val)))
    CompleteMultipartUpload := fun input => .ok ⟨input.Key, input.Bucket, "etag-final"⟩ }

/-- A reader like `osFileRead` on a disk with a bad block: a read that starts at a byte of
value 255 fails with the error `EIO`. -/
def faultyRead : Reader (List Byte) := fun buf rest =>
  if rest.head? = some 255 then (⟨buf, 0, .other "EIO"⟩, rest) else osFileRead buf rest

/-- An environment for concrete runs in which several calls fail: the file is read by
`faultyRead`, and every `UploadPart` fails, part 1 with `InternalError` and the other parts
with `SlowDown`. -/
def failingEnv (B : Nat) (content : List Byte) : Env (List Byte) :=
  { B := B
    Base := fun p => p
    NewSession := .ok ()
    CreateMultipartUpload := fun _ => .ok "upload-1"
    Open := fun _ => .ok content
    Read := faultyRead
    UploadPart := fun input =>
      if input.PartNumber = 1 then .error "InternalError" else .error "SlowDown"
    CompleteMultipartUpload := fun input => .ok ⟨input.Key, input.Bucket, "etag-final"⟩ }

/-! ## The invariant of the goroutine system -/

/-- The main goroutine holds a slot of `workersCtrl` for a worker it has not started yet. -/
def MainPc.slotInHand {σ : Type} : MainPc σ → Nat
  | .spawn _ _ _ => 1
  | _ => 0

/-- The main goroutine has left the read loop through the send on `endRead`. -/
def MainPc.pastEndRead {σ : Type} : MainPc σ → Bool
  | .waitEndUpload => true
  | .commit => true
  | .returned _ => true
  | _ => false

/-- The main goroutine has received from `endUpload`. -/
def MainPc.pastEndUpload {σ : Type} : MainPc σ → Bool
  | .commit => true
  | .returned _ => true
  | _ => false

/-- The collector has received an etag and not yet the slot that goes with it. -/
def CollectorPc.slotOwed : CollectorPc → Nat
  | .release => 1
  | _ => 0

/-- The collector has sent on `endUpload`. -/
def CollectorPc.pastSignal : CollectorPc → Bool
  | .cleanup _ => true
  | .exited => true
  | _ => false

/-- The worker has made its `UploadPart` call. -/
def Worker.called (w : Worker) : Bool :=
  match w.pc with
  | .uploading => false
  | _ => true

/-- The `CompletedPart` that a worker sends after a successful `UploadPart` (line 147);
`none` when the call fails. -/
def completedPart {σ : Type} (env : Env σ) (sess : Session) (w : Worker) : Option CompletedPart :=
  match env.UploadPart (uploadPartInput sess w) with
  | .ok etag => some { ETag := etag, PartNumber := w.pn }
  | .error _ => none

/-- The invariant on control: who holds the slots of `workersCtrl`, and how far the main
goroutine and the collector are with respect to each other. -/
structure CtrlInv {σ : Type} (main : MainPc σ) (collector : CollectorPc) (done : Bool)
    (workersCtrl : Nat) (workers : List Worker) : Prop where
  slots : workersCtrl + workers.countP Worker.reported =
    workers.length + main.slotInHand + collector.slotOwed
  cap : workersCtrl ≤ maxWorkers
  done_eq : done = main.pastEndRead
  signal_eq : collector.pastSignal = main.pastEndUpload
  checkEnd_main : collector = .checkEnd → main = .waitEndUpload
  signal_main : collector = .signal → main = .waitEndUpload ∧ workersCtrl = 0
  past_empty : collector.pastSignal = true → workersCtrl = 0
  select_done : collector = .select → done = true → 0 < workersCtrl

/-- The invariant on data: `etags` holds the parts of the workers that have reported, each
with the ETag that `UploadPart` returned for it, and `uploadCalls` the requests of the workers
that have made their call. -/
structure DataInv {σ : Type} (env : Env σ) (sess : Session) (workers : List Worker)
    (etags : List CompletedPart) (uploadCalls : List UploadPartInput) : Prop where
  etags_perm : (etags.map some).Perm ((workers.filter Worker.reported).map (completedPart env sess))
  sending_ok : ∀ w ∈ workers, ∀ etag, w.pc = .sending etag →
    env.UploadPart (uploadPartInput sess w) = .ok etag
  failed_err : ∀ w ∈ workers, ∀ msg, w.pc = .failed msg →
    env.UploadPart (uploadPartInput sess w) = .error msg
  calls_perm : uploadCalls.Perm ((workers.filter Worker.called).map (uploadPartInput sess))

/-- The relation between the main goroutine and the read loop on the opened file `file`: the
chunks dispatched so far, followed by what the loop does from where the main goroutine stands,
are what the loop does from the start. -/
def loopLink {σ : Type} (env : Env σ) (file : σ) (main : MainPc σ) (chunks : List Chunk) : Prop :=
  match main with
  | .reading s partNumber =>
    ∀ fuel, readLoop env.B env.Read (chunks.length + fuel) file firstPartNumber =
      (chunks ++ (readLoop env.B env.Read fuel s partNumber).1,
        (readLoop env.B env.Read fuel s partNumber).2)
  | .acquire s partNumber payload =>
    ∀ fuel, readLoop env.B env.Read (chunks.length + 1 + fuel) file firstPartNumber =
      (chunks ++ ⟨payload, partNumber⟩ ::
          (readLoop env.B env.Read fuel s (wrapInt64 (partNumber + 1))).1,
        (readLoop env.B env.Read fuel s (wrapInt64 (partNumber + 1))).2)
  | .spawn s partNumber payload =>
    ∀ fuel, readLoop env.B env.Read (chunks.length + 1 + fuel) file firstPartNumber =
      (chunks ++ ⟨payload, partNumber⟩ ::
          (readLoop env.B env.Read fuel s (wrapInt64 (partNumber + 1))).1,
        (readLoop env.B env.Read fuel s (wrapInt64 (partNumber + 1))).2)
  | _ =>
    ∀ fuel, readLoop env.B env.Read (chunks.length + 1 + fuel) file firstPartNumber =
      (chunks, .endRead)

/-- What the panic recorded in a state says about the state. -/
def crashCause {σ : Type} (env : Env σ) (sess : Session) (main : MainPc σ)
    (workers : List Worker) (etags : List CompletedPart) : Option Panic → Prop
  | none => True
  | some (.read msg) =>
    ∃ s partNumber, main = .reading s partNumber ∧
      (env.Read (makeBuf env.B) s).1.err = .other msg
  | some (.uploadPart pn msg) =>
    ∃ w ∈ workers, w.pn = pn ∧ w.pc = .failed msg
  | some (.completeMultipartUpload msg) =>
    main = .commit ∧
      (commitStep env sess.bucket sess.keyName sess.uploadId etags).result =
        .error (.completeMultipartUpload msg)
  | some _ => False

/-- The commit step has run: `uploadConcurrent` returned, or the process died of the error of
`CompleteMultipartUpload`. -/
def committed {σ : Type} : MainPc σ → Option Panic → Bool
  | .returned _, _ => true
  | _, some (.completeMultipartUpload _) => true
  | _, _ => false

/-- The invariant on the end of the run: the cause of a panic, and the calls of
`CompleteMultipartUpload` made. -/
structure EndInv {σ : Type} (env : Env σ) (sess : Session) (main : MainPc σ)
    (workers : List Worker) (etags : List CompletedPart)
    (completeCalls : List CompleteMultipartUploadInput) (crashed : Option Panic) : Prop where
  crash : crashCause env sess main workers etags crashed
  complete : completeCalls =
    if committed main crashed then
      (commitStep env sess.bucket sess.keyName sess.uploadId etags).calls
    else []
  returned_ok : ∀ out, main = .returned out →
    (commitStep env sess.bucket sess.keyName sess.uploadId etags).result = .ok out

/-- The invariant of the goroutine system started on the opened file `file` in the session
`sess`. -/
structure Inv {σ : Type} (env : Env σ) (file : σ) (sess : Session) (st : State σ) : Prop where
  sess_eq : st.sess = sess
  ctrl : CtrlInv st.main st.collector st.done st.workersCtrl st.workers
  data : DataInv env sess st.workers st.etags st.uploadCalls
  loop : loopLink env file st.main (dispatched st)
  fin : EndInv env sess st.main st.workers st.etags st.completeCalls st.crashed

/-- The states that the process can be in: those that a schedule leads to from the state in
which the goroutines start. -/
def Reachable {σ : Type} (env : Env σ) (localPath bucket : String) (st : State σ) : Prop :=
  ∃ st0 sched, start env localPath bucket = .ok st0 ∧ run env st0 sched = some st

/-- No goroutine can take a step. -/
def terminal {σ : Type} (env : Env σ) (st : State σ) : Prop :=
  ∀ a, step env st a = none

/-- The state that a schedule leads to from the start of `uploadConcurrent`, if the start
succeeds and every step of the schedule can be taken. -/
def runFrom {σ : Type} (env : Env σ) (localPath bucket : String) (sched : List Action) :
    Option (State σ) :=
  match start env localPath bucket with
  | .error _ => none
  | .ok st0 => run env st0 sched

/-- The number of upload workers that are inside their `UploadPart` call. -/
def uploading {σ : Type} (st : State σ) : Nat :=
  st.workers.countP (fun w => !w.called)

/-! ## A measure of the work left -/

/-- The steps the main goroutine still has to take, and those of the workers it still has to
start, when `total` chunks are to be read and `started` workers have been started. -/
def MainPc.potential {σ : Type} (total started : Nat) : MainPc σ → Nat
  | .reading _ _ => 9 * (total - started) + 6
  | .acquire _ _ _ => 9 * (total - started) + 5
  | .spawn _ _ _ => 9 * (total - started) + 4
  | .sendEndRead => 5
  | .waitEndUpload => 3
  | .commit => 2
  | .returned _ => 0

/-- The steps a worker still has to take, with those it causes in the collector. -/
def WorkerPc.potential : WorkerPc → Nat
  | .uploading => 6
  | .failed _ => 1
  | .sending _ => 5
  | .counting => 1
  | .exited => 0

/-- The steps the collector still has to take by itself. -/
def CollectorPc.potential : CollectorPc → Nat
  | .release => 8
  | .checkEtag => 7
  | .checkEnd => 7
  | .select => 6
  | .signal => 5
  | .cleanup closed => 1 + (3 - closed)
  | .exited => 0

/-- A bound on the number of steps the process can still take when `total` chunks are to be
read. -/
def potential {σ : Type} (total : Nat) (st : State σ) : Nat :=
  if st.crashed.isSome then 0
  else
    st.main.potential total st.workers.length +
      (st.workers.map (fun w => w.pc.potential)).sum + st.collector.potential

/-! ## The read loop on a file -/

theorem wrapInt64_of_range (x : Int) (h0 : -2 ^ 63 ≤ x) (h1 : x < 2 ^ 63) : wrapInt64 x = x := by
  unfold wrapInt64
  omega

theorem makeBuf_length (B : Nat) : (makeBuf B).length = B := by
  simp [makeBuf]

theorem readLoop_osFile_nil (B fuel : Nat) (pn : Int) (hB : 0 < B) :
    readLoop B osFileRead (fuel + 1) [] pn = ([], .endRead) := by
  have hB' : B ≠ 0 := by omega
  simp [readLoop, osFileRead, makeBuf_length, hB']

theorem readLoop_osFile_cons (B fuel : Nat) (rest : List Byte) (pn : Int) (hB : 0 < B)
    (hr : rest ≠ []) :
    readLoop B osFileRead (fuel + 1) rest pn =
      (⟨rest.take B, pn⟩ :: (readLoop B osFileRead fuel (rest.drop B) (wrapInt64 (pn + 1))).1,
        (readLoop B osFileRead fuel (rest.drop B) (wrapInt64 (pn + 1))).2) := by
  have hB' : B ≠ 0 := by omega
  have hl : rest.length ≠ 0 := by
    intro h; exact hr (List.length_eq_zero.mp h)
  simp only [readLoop, osFileRead, makeBuf_length, hB', hl, if_false]
  rcases Nat.le_total B rest.length with h | h
  · simp [Nat.min_eq_left h, List.take_append_of_le_length, List.length_take, h]
  · simp [Nat.min_eq_right h, List.take_of_length_le h, List.drop_of_length_le h]


theorem ceilDiv_zero (B : Nat) (hB : 0 < B) : ceilDiv 0 B = 0 := by
  unfold ceilDiv
  apply Nat.div_eq_of_lt
  omega

theorem ceilDiv_step (S B : Nat) (hB : 0 < B) (hS : 0 < S) :
    ceilDiv S B = ceilDiv (S - B) B + 1 := by
  unfold ceilDiv
  rcases Nat.lt_or_ge S B with h | h
  · have h1 : S - B = 0 := by omega
    rw [h1]
    have h2 : (0 + B - 1) / B = 0 := Nat.div_eq_of_lt (by omega)
    have h3 : (S + B - 1) / B = 1 := by
      apply Nat.div_eq_of_lt_le <;> omega
    omega
  · have h1 : S + B - 1 = (S - B + B - 1) + B := by omega
    rw [h1, Nat.add_div_right _ hB]

theorem readLoop_osFile_end (B : Nat) (hB : 0 < B) :
    ∀ (fuel : Nat) (rest : List Byte) (pn : Int), rest.length < fuel →
      (readLoop B osFileRead fuel rest pn).2 = .endRead := by
  intro fuel
  induction fuel with
  | zero => intro rest pn h; omega
  | succ fuel ih =>
    intro rest pn h
    by_cases hr : rest = []
    · subst hr; rw [readLoop_osFile_nil B fuel pn hB]
    · rw [readLoop_osFile_cons B fuel rest pn hB hr]
      apply ih
      have : 0 < rest.length := List.length_pos.mpr hr
      simp only [List.length_drop]
      omega

theorem readLoop_osFile_payloads (B : Nat) (hB : 0 < B) :
    ∀ (fuel : Nat) (rest : List Byte) (pn : Int), rest.length < fuel →
      ((readLoop B osFileRead fuel rest pn).1.map Chunk.payload).flatten = rest := by
  intro fuel
  induction fuel with
  | zero => intro rest pn h; omega
  | succ fuel ih =>
    intro rest pn h
    by_cases hr : rest = []
    · subst hr; rw [readLoop_osFile_nil B fuel pn hB]; rfl
    · rw [readLoop_osFile_cons B fuel rest pn hB hr]
      have : 0 < rest.length := List.length_pos.mpr hr
      simp only [List.map_cons, List.flatten_cons]
      rw [ih]
      · exact List.take_append_drop B rest
      · simp only [List.length_drop]; omega

theorem readLoop_osFile_length (B : Nat) (hB : 0 < B) :
    ∀ (fuel : Nat) (rest : List Byte) (pn : Int), rest.length < fuel →
      (readLoop B osFileRead fuel rest pn).1.length = ceilDiv rest.length B := by
  intro fuel
  induction fuel with
  | zero => intro rest pn h; omega
  | succ fuel ih =>
    intro rest pn h
    by_cases hr : rest = []
    · subst hr; rw [readLoop_osFile_nil B fuel pn hB]; simp [ceilDiv_zero B hB]
    · rw [readLoop_osFile_cons B fuel rest pn hB hr]
      have : 0 < rest.length := List.length_pos.mpr hr
      rw [ceilDiv_step _ B hB this]
      simp only [List.length_cons]
      rw [ih]
      · simp
      · simp only [List.length_drop]; omega

theorem readLoop_osFile_pns (B : Nat) (hB : 0 < B) :
    ∀ (fuel : Nat) (rest : List Byte) (pn : Int), rest.length < fuel → 0 ≤ pn →
      pn + ceilDiv rest.length B ≤ 2 ^ 63 →
      (readLoop B osFileRead fuel rest pn).1.map Chunk.pn =
        (List.range (ceilDiv rest.length B)).map (fun (i : Nat) => pn + (i : Int)) := by
  intro fuel
  induction fuel with
  | zero => intro rest pn h; omega
  | succ fuel ih =>
    intro rest pn h h0 hmax
    by_cases hr : rest = []
    · subst hr; rw [readLoop_osFile_nil B fuel pn hB]; simp [ceilDiv_zero B hB]
    · rw [readLoop_osFile_cons B fuel rest pn hB hr]
      have hpos : 0 < rest.length := List.length_pos.mpr hr
      rw [ceilDiv_step _ B hB hpos] at hmax ⊢
      have hlt : (rest.drop B).length < fuel := by
        simp only [List.length_drop]; omega
      simp only [List.map_cons, List.range_succ_eq_map, List.map_map]
      by_cases hd : rest.drop B = []
      · have hz : rest.length - B = 0 := by
          have := congrArg List.length hd
          simpa using this
        cases fuel with
        | zero => omega
        | succ fuel =>
          rw [hd, readLoop_osFile_nil B fuel _ hB, hz, ceilDiv_zero B hB]
          simp
      · have hpos' : 0 < (rest.drop B).length := List.length_pos.mpr hd
        have hc := ceilDiv_step _ B hB hpos'
        rw [List.length_drop] at hc
        have hw : wrapInt64 (pn + 1) = pn + 1 := by
          apply wrapInt64_of_range <;> push_cast at hmax <;> omega
        rw [hw, ih _ _ hlt (by omega)]
        · simp only [List.length_drop, Nat.cast_zero, add_zero, List.cons.injEq, true_and]
          apply List.map_congr_left
          intro i _
          simp only [Function.comp, Nat.cast_succ]
          ring
        · simp only [List.length_drop]; push_cast at hmax ⊢; omega


theorem ceilDiv_eq_ceil (S B : Nat) (hB : 0 < B) : ceilDiv S B = ⌈(S : ℚ) / (B : ℚ)⌉₊ := by
  symm
  have hBq : (0 : ℚ) < (B : ℚ) := by exact_mod_cast hB
  rcases Nat.eq_zero_or_pos S with h | h
  · subst h
    simp [ceilDiv_zero B hB]
  · have hn : ceilDiv S B ≠ 0 := by
      rw [ceilDiv_step S B hB h]; omega
    rw [Nat.ceil_eq_iff hn]
    have h1 : ceilDiv S B * B < S + B := by
      unfold ceilDiv
      have := Nat.div_mul_le_self (S + B - 1) B
      omega
    have h2 : S ≤ ceilDiv S B * B := by
      unfold ceilDiv
      have := Nat.lt_div_mul_add (a := S + B - 1) hB
      omega
    constructor
    · rw [lt_div_iff₀ hBq]
      have h3 : (ceilDiv S B - 1) * B < S := by
        have : (ceilDiv S B - 1) * B = ceilDiv S B * B - B := by
          rw [Nat.sub_mul, Nat.one_mul]
        omega
      exact_mod_cast h3
    · rw [div_le_iff₀ hBq]
      exact_mod_cast h2


theorem ceilDiv_le_self (S B : Nat) (hB : 0 < B) : ceilDiv S B ≤ S := by
  unfold ceilDiv
  rcases Nat.eq_zero_or_pos S with h | h
  · rw [h]; simp; exact Nat.div_eq_of_lt (by omega)
  · calc (S + B - 1) / B ≤ (S * B) / B := by
          apply Nat.div_le_div_right
          have : S + B ≤ S * B + 1 := by
            obtain ⟨s, hs⟩ : ∃ s, S = s + 1 := ⟨S - 1, by omega⟩
            obtain ⟨b, hb⟩ : ∃ b, B = b + 1 := ⟨B - 1, by omega⟩
            rw [hs, hb]; ring_nf; nlinarith [Nat.zero_le (s * b)]
          omega
      _ = S := Nat.mul_div_cancel _ hB

theorem readLoop_osFile_numbers (B : Nat) (content : List Byte) (fuel : Nat)
    (hB : 0 < B) (hS : content.length < 2 ^ 63) (hfuel : content.length < fuel) :
    (readLoop B osFileRead fuel content firstPartNumber).1.map Chunk.pn
      = (List.range (ceilDiv content.length B)).map (fun (i : Nat) => (i : Int) + 1) := by
  have hN := ceilDiv_le_self content.length B hB
  rw [readLoop_osFile_pns B hB fuel content firstPartNumber hfuel (by decide)
    (by unfold firstPartNumber; push_cast; omega)]
  apply List.map_congr_left
  intro i _
  unfold firstPartNumber
  ring

/-- C1: on a file of `S` bytes read in blocks of `B > 0` bytes, the read loop ends at end of
file having dispatched exactly `ceil(S/B)` chunks, numbered `1, 2, ..., N` in dispatch order;
an empty file gives no chunk, a file of `B` bytes one chunk numbered 1, a file of `4.5 * B`
bytes five chunks. -/
theorem C1_chunks_counted_and_numbered (B : Nat) (content : List Byte) (fuel : Nat)
    (hB : 0 < B) (hS : content.length < 2 ^ 63) (hfuel : content.length < fuel) :
    (readLoop B osFileRead fuel content firstPartNumber).2 = .endRead ∧
    (readLoop B osFileRead fuel content firstPartNumber).1.length
      = ⌈(content.length : ℚ) / (B : ℚ)⌉₊ ∧
    (readLoop B osFileRead fuel content firstPartNumber).1.map Chunk.pn
      = (List.range ⌈(content.length : ℚ) / (B : ℚ)⌉₊).map (fun (i : Nat) => (i : Int) + 1) ∧
    (content.length = 0 → (readLoop B osFileRead fuel content firstPartNumber).1 = []) ∧
    (content.length = B →
      (readLoop B osFileRead fuel content firstPartNumber).1.map Chunk.pn = [1]) ∧
    (2 * content.length = 9 * B →
      (readLoop B osFileRead fuel content firstPartNumber).1.map Chunk.pn = [1, 2, 3, 4, 5]) := by
  have hlen := readLoop_osFile_length B hB fuel content firstPartNumber hfuel
  have hpn' := readLoop_osFile_numbers B content fuel hB hS hfuel
  rw [← ceilDiv_eq_ceil _ _ hB]
  refine ⟨readLoop_osFile_end B hB fuel content _ hfuel, hlen, hpn', ?_, ?_, ?_⟩
  · intro h0
    apply List.eq_nil_of_length_eq_zero
    rw [hlen, h0, ceilDiv_zero B hB]
  · intro hSB
    rw [hpn']
    have : ceilDiv content.length B = 1 := by
      rw [hSB]; unfold ceilDiv
      apply Nat.div_eq_of_lt_le <;> omega
    rw [this]; rfl
  · intro h45
    rw [hpn']
    have : ceilDiv content.length B = 5 := by
      unfold ceilDiv
      apply Nat.div_eq_of_lt_le <;> omega
    rw [this]; rfl

/-- The statement of C1 at a file of five bytes read in blocks of two. -/
theorem C1_chunks_counted_and_numbered_witness :
    (0 < 2 ∧ ([1, 2, 3, 4, 5] : List Byte).length < 2 ^ 63 ∧
      ([1, 2, 3, 4, 5] : List Byte).length < 6) ∧
    (readLoop 2 osFileRead 6 [1, 2, 3, 4, 5] firstPartNumber).1.map Chunk.pn
      = (List.range ⌈((([1, 2, 3, 4, 5] : List Byte).length : ℕ) : ℚ) / ((2 : ℕ) : ℚ)⌉₊).map
          (fun (i : Nat) => (i : Int) + 1) :=
  ⟨⟨by decide, by decide, by decide⟩,
    (C1_chunks_counted_and_numbered 2 [1, 2, 3, 4, 5] 6 (by decide) (by decide) (by decide)).2.2.1⟩


theorem readLoop_osFile_sizes (B : Nat) (hB : 0 < B) :
    ∀ (fuel : Nat) (rest : List Byte) (pn : Int), rest.length < fuel →
      (∀ c ∈ (readLoop B osFileRead fuel rest pn).1, 0 < c.payload.length ∧ c.payload.length ≤ B) ∧
      (∀ c ∈ (readLoop B osFileRead fuel rest pn).1.dropLast, c.payload.length = B) := by
  intro fuel
  induction fuel with
  | zero => intro rest pn h; omega
  | succ fuel ih =>
    intro rest pn h
    by_cases hr : rest = []
    · subst hr; rw [readLoop_osFile_nil B fuel pn hB]; simp
    · rw [readLoop_osFile_cons B fuel rest pn hB hr]
      have hpos : 0 < rest.length := List.length_pos.mpr hr
      have hlt : (rest.drop B).length < fuel := by
        simp only [List.length_drop]; omega
      obtain ⟨ih1, ih2⟩ := ih (rest.drop B) (wrapInt64 (pn + 1)) hlt
      constructor
      · intro c hc
        rcases List.mem_cons.mp hc with h1 | h1
        · subst h1
          simp only [List.length_take]
          omega
        · exact ih1 c h1
      · intro c hc
        by_cases hd : rest.drop B = []
        · cases fuel with
          | zero => simp at hlt
          | succ fuel =>
            rw [hd, readLoop_osFile_nil B fuel _ hB] at hc
            simp at hc
        · have hne : (readLoop B osFileRead fuel (rest.drop B) (wrapInt64 (pn + 1))).1 ≠ [] := by
            intro h0
            have := readLoop_osFile_length B hB fuel (rest.drop B) (wrapInt64 (pn + 1)) hlt
            rw [h0, ceilDiv_step _ B hB (List.length_pos.mpr hd)] at this
            simp at this
          rw [List.dropLast_cons_of_ne_nil hne] at hc
          rcases List.mem_cons.mp hc with h1 | h1
          · subst h1
            have : B < rest.length := by
              have := List.length_pos.mpr hd
              simp only [List.length_drop] at this
              omega
            simp only [List.length_take]
            omega
          · exact ih2 c h1

/-- C9: on a file read in blocks of `B > 0` bytes, the payloads of the dispatched chunks,
concatenated in dispatch order (which is the order of their part numbers), are the content
of the file; every payload is the bytes read, at most `B` of them and at least one, and every
payload but the last has exactly `B` bytes. -/
theorem C9_payloads_are_the_file (B : Nat) (content : List Byte) (fuel : Nat)
    (hB : 0 < B) (hS : content.length < 2 ^ 63) (hfuel : content.length < fuel) :
    ((readLoop B osFileRead fuel content firstPartNumber).1.map Chunk.payload).flatten = content ∧
    (readLoop B osFileRead fuel content firstPartNumber).1.Pairwise (fun a b => a.pn < b.pn) ∧
    (∀ c ∈ (readLoop B osFileRead fuel content firstPartNumber).1,
      0 < c.payload.length ∧ c.payload.length ≤ B) ∧
    (∀ c ∈ (readLoop B osFileRead fuel content firstPartNumber).1.dropLast,
      c.payload.length = B) := by
  refine ⟨readLoop_osFile_payloads B hB fuel content _ hfuel, ?_,
    (readLoop_osFile_sizes B hB fuel content _ hfuel).1,
    (readLoop_osFile_sizes B hB fuel content _ hfuel).2⟩
  have hpn := readLoop_osFile_numbers B content fuel hB hS hfuel
  have hp : ((readLoop B osFileRead fuel content firstPartNumber).1.map Chunk.pn).Pairwise
      (fun a b => a < b) := by
    rw [hpn, List.pairwise_map]
    refine (List.pairwise_lt_range _).imp ?_
    intro a b hab
    omega
  exact (List.pairwise_map.mp hp)

/-- The statement of C9 at a file of five bytes read in blocks of two. -/
theorem C9_payloads_are_the_file_witness :
    (0 < 2 ∧ ([1, 2, 3, 4, 5] : List Byte).length < 2 ^ 63 ∧
      ([1, 2, 3, 4, 5] : List Byte).length < 6) ∧
    ((readLoop 2 osFileRead 6 [1, 2, 3, 4, 5] firstPartNumber).1.map Chunk.payload).flatten
      = [1, 2, 3, 4, 5] :=
  ⟨⟨by decide, by decide, by decide⟩,
    (C9_payloads_are_the_file 2 [1, 2, 3, 4, 5] 6 (by decide) (by decide) (by decide)).1⟩


/-! ## Zero-length reads -/

theorem osFileRead_wellFormed (B : Nat) (hB : 0 < B) (rest : List Byte) :
    ((osFileRead (makeBuf B) rest).1.err = .nil ↔ 0 < (osFileRead (makeBuf B) rest).1.bytesRead) ∧
    (osFileRead (makeBuf B) rest).1.bytesRead ≤ (osFileRead (makeBuf B) rest).1.buf.length := by
  have hB' : B ≠ 0 := by omega
  unfold osFileRead
  simp only [makeBuf_length, hB', if_false]
  by_cases hr : rest.length = 0
  · simp [hr]
  · simp only [hr, if_false]
    refine ⟨⟨fun _ => ?_, fun _ => trivial⟩, ?_⟩
    · exact Nat.lt_min.mpr ⟨hB, Nat.pos_of_ne_zero hr⟩
    · simp only [List.length_append, List.length_take, List.length_drop, makeBuf_length]
      omega

/-- C8 as stated fails at block size 0 (the flag `-c 0`): on a file of one byte every read
returns zero bytes with a nil error, the empty payload is dispatched as a chunk each time, and
the loop does not stop. -/
theorem C8_zero_length_read_is_forwarded :
    (osFileRead (makeBuf 0) [7]).1.bytesRead = 0 ∧
    readLoop 0 osFileRead 2 [7] firstPartNumber = ([⟨[], 1⟩, ⟨[], 2⟩], .running) := by
  decide

/-- C8, amended: when the reader returns zero bytes exactly on the reads that report an error
(`io.EOF` or another one) and never more bytes than the buffer holds, as `file.Read` does for a
positive block size, every dispatched chunk has a non-empty payload, a zero-length read stops
the loop with nothing forwarded, and any other read is forwarded and the loop goes on. -/
theorem C8_loop_stops_at_first_zero_length_read {σ : Type} (B : Nat) (read : Reader σ)
    (hwf : ∀ s, ((read (makeBuf B) s).1.err = .nil ↔ 0 < (read (makeBuf B) s).1.bytesRead) ∧
      (read (makeBuf B) s).1.bytesRead ≤ (read (makeBuf B) s).1.buf.length)
    (fuel : Nat) (s : σ) (pn : Int) :
    (∀ c ∈ (readLoop B read fuel s pn).1, c.payload ≠ []) ∧
    ((read (makeBuf B) s).1.bytesRead = 0 →
      (readLoop B read (fuel + 1) s pn).1 = [] ∧ (readLoop B read (fuel + 1) s pn).2 ≠ .running) ∧
    ((read (makeBuf B) s).1.bytesRead ≠ 0 →
      readLoop B read (fuel + 1) s pn =
        (⟨(read (makeBuf B) s).1.buf.take (read (makeBuf B) s).1.bytesRead, pn⟩ ::
            (readLoop B read fuel (read (makeBuf B) s).2 (wrapInt64 (pn + 1))).1,
          (readLoop B read fuel (read (makeBuf B) s).2 (wrapInt64 (pn + 1))).2)) := by
  refine ⟨?_, ?_, ?_⟩
  · induction fuel generalizing s pn with
    | zero => intro c hc; simp [readLoop] at hc
    | succ fuel ih =>
      intro c hc
      obtain ⟨h1, h2⟩ := hwf s
      unfold readLoop at hc
      simp only at hc
      cases herr : (read (makeBuf B) s).1.err with
      | eof => rw [herr] at hc; simp at hc
      | other msg => rw [herr] at hc; simp at hc
      | nil =>
        rw [herr] at hc
        simp only [List.mem_cons] at hc
        rcases hc with hc | hc
        · subst hc
          have hpos := h1.mp herr
          intro h0
          have := congrArg List.length h0
          simp only [List.length_take, List.length_nil] at this
          omega
        · exact ih _ _ c hc
  · intro h0
    obtain ⟨h1, _⟩ := hwf s
    have hne : (read (makeBuf B) s).1.err ≠ .nil := by
      intro h; have := h1.mp h; omega
    unfold readLoop
    simp only
    cases herr : (read (makeBuf B) s).1.err with
    | eof => simp
    | other msg => simp
    | nil => exact absurd herr hne
  · intro h0
    obtain ⟨h1, _⟩ := hwf s
    have herr : (read (makeBuf B) s).1.err = .nil := h1.mpr (Nat.pos_of_ne_zero h0)
    conv_lhs => unfold readLoop
    simp only [herr]

/-- The statement of C8, amended, at the file reader with blocks of two bytes. -/
theorem C8_loop_stops_at_first_zero_length_read_witness :
    (∀ s : List Byte,
      ((osFileRead (makeBuf 2) s).1.err = .nil ↔ 0 < (osFileRead (makeBuf 2) s).1.bytesRead) ∧
      (osFileRead (makeBuf 2) s).1.bytesRead ≤ (osFileRead (makeBuf 2) s).1.buf.length) ∧
    (∀ c ∈ (readLoop 2 osFileRead 4 [1, 2, 3] firstPartNumber).1, c.payload ≠ []) :=
  ⟨osFileRead_wellFormed 2 (by decide),
    (C8_loop_stops_at_first_zero_length_read 2 osFileRead (osFileRead_wellFormed 2 (by decide))
      4 [1, 2, 3] firstPartNumber).1⟩


/-! ## The sort step and the commit step -/

theorem insertLess_perm {α : Type} (less : α → α → Bool) (x : α) (l : List α) :
    (insertLess less x l).Perm (x :: l) := by
  induction l with
  | nil => exact List.Perm.refl _
  | cons y ys ih =>
    unfold insertLess
    split
    · exact List.Perm.refl _
    · exact (List.Perm.cons y ih).trans (List.Perm.swap x y ys)

theorem foldl_insertLess_perm {α : Type} (less : α → α → Bool) (s acc : List α) :
    (s.foldl (fun acc x => insertLess less x acc) acc).Perm (acc ++ s) := by
  induction s generalizing acc with
  | nil => simp
  | cons x xs ih =>
    simp only [List.foldl_cons]
    refine (ih _).trans ?_
    refine ((insertLess_perm less x acc).append_right xs).trans ?_
    simp only [List.cons_append]
    exact (List.perm_middle).symm

theorem sortSlice_perm {α : Type} (less : α → α → Bool) (s : List α) :
    (sortSlice less s).Perm s := by
  have := foldl_insertLess_perm less s []
  simpa [sortSlice] using this

theorem insertLess_lessPart_sorted (x : CompletedPart) (l : List CompletedPart)
    (h : l.Pairwise (fun a b => a.PartNumber ≤ b.PartNumber)) :
    (insertLess lessPart x l).Pairwise (fun a b => a.PartNumber ≤ b.PartNumber) := by
  induction l with
  | nil => simp [insertLess]
  | cons y ys ih =>
    unfold insertLess
    rw [List.pairwise_cons] at h
    by_cases hxy : lessPart x y = true
    · simp only [hxy, if_true]
      have hlt : x.PartNumber < y.PartNumber := by simpa [lessPart] using hxy
      refine List.Pairwise.cons ?_ (List.Pairwise.cons h.1 h.2)
      intro b hb
      rcases List.mem_cons.mp hb with hb | hb
      · subst hb; omega
      · have := h.1 b hb; omega
    · simp only [hxy]
      have hge : y.PartNumber ≤ x.PartNumber := by
        simp only [lessPart, decide_eq_true_eq, not_lt] at hxy
        exact hxy
      refine List.Pairwise.cons ?_ (ih h.2)
      intro b hb
      rcases List.mem_cons.mp ((insertLess_perm lessPart x ys).subset hb) with hb | hb
      · subst hb; exact hge
      · exact h.1 b hb

theorem foldl_insertLess_lessPart_sorted (s acc : List CompletedPart)
    (h : acc.Pairwise (fun a b => a.PartNumber ≤ b.PartNumber)) :
    (s.foldl (fun acc x => insertLess lessPart x acc) acc).Pairwise
      (fun a b => a.PartNumber ≤ b.PartNumber) := by
  induction s generalizing acc with
  | nil => simpa using h
  | cons x xs ih =>
    simp only [List.foldl_cons]
    exact ih _ (insertLess_lessPart_sorted x acc h)

theorem sortSlice_lessPart_sorted (s : List CompletedPart) :
    (sortSlice lessPart s).Pairwise (fun a b => a.PartNumber ≤ b.PartNumber) :=
  foldl_insertLess_lessPart_sorted s [] List.Pairwise.nil

theorem commitStep_calls {σ : Type} (env : Env σ) (bucket keyName uploadId : String)
    (etags : List CompletedPart) :
    (commitStep env bucket keyName uploadId etags).calls =
      [{ Bucket := bucket, Key := keyName, Parts := sortSlice lessPart etags,
         UploadId := uploadId }] := by
  unfold commitStep
  simp only
  split <;> rfl

/-- C3: whatever the order in which the records were collected, the commit step makes one call
of `CompleteMultipartUpload`, and the part list of that call is in non-decreasing order of
`PartNumber` and is a permutation of the collected records. -/
theorem C3_committed_parts_sorted_permutation {σ : Type} (env : Env σ)
    (bucket keyName uploadId : String) (etags : List CompletedPart) :
    ∃ input, (commitStep env bucket keyName uploadId etags).calls = [input] ∧
      input.Parts.Pairwise (fun a b => a.PartNumber ≤ b.PartNumber) ∧
      input.Parts.Perm etags :=
  ⟨_, commitStep_calls env bucket keyName uploadId etags,
    sortSlice_lessPart_sorted etags, sortSlice_perm lessPart etags⟩

/-- C7 as stated fails: on a collected list with a gap (parts 1 and 3) and on one with a
duplicate (part 1 twice), neither of which is contiguous, the commit step calls
`CompleteMultipartUpload` with the list and ends without an error. -/
theorem C7_no_contiguity_check :
    contiguous (sortSlice lessPart [⟨"c", 3⟩, ⟨"a", 1⟩]) = false ∧
    (commitStep (demoEnv 2 [] none) "bucket" "key" "upload-1" [⟨"c", 3⟩, ⟨"a", 1⟩]).calls =
      [⟨"bucket", "key", [⟨"a", 1⟩, ⟨"c", 3⟩], "upload-1"⟩] ∧
    (commitStep (demoEnv 2 [] none) "bucket" "key" "upload-1" [⟨"c", 3⟩, ⟨"a", 1⟩]).result =
      .ok ⟨"key", "bucket", "etag-final"⟩ ∧
    contiguous (sortSlice lessPart [⟨"a", 1⟩, ⟨"b", 1⟩]) = false ∧
    (commitStep (demoEnv 2 [] none) "bucket" "key" "upload-1" [⟨"a", 1⟩, ⟨"b", 1⟩]).calls =
      [⟨"bucket", "key", [⟨"a", 1⟩, ⟨"b", 1⟩], "upload-1"⟩] ∧
    (commitStep (demoEnv 2 [] none) "bucket" "key" "upload-1" [⟨"a", 1⟩, ⟨"b", 1⟩]).result =
      .ok ⟨"key", "bucket", "etag-final"⟩ := by
  refine ⟨by decide, by decide, rfl, by decide, by decide, rfl⟩

/-- C7, amended: the commit step validates nothing. For every collected list, contiguous or
not, it calls `CompleteMultipartUpload` once with the sorted list, and it fails exactly when
that call returns an error, with that error. -/
theorem C7_commit_calls_service_on_every_list {σ : Type} (env : Env σ)
    (bucket keyName uploadId : String) (etags : List CompletedPart) :
    (commitStep env bucket keyName uploadId etags).calls =
      [{ Bucket := bucket, Key := keyName, Parts := sortSlice lessPart etags,
         UploadId := uploadId }] ∧
    (commitStep env bucket keyName uploadId etags).result =
      (match env.CompleteMultipartUpload
          { Bucket := bucket, Key := keyName, Parts := sortSlice lessPart etags,
            UploadId := uploadId } with
        | .error msg => .error (.completeMultipartUpload msg)
        | .ok out => .ok out) := by
  refine ⟨commitStep_calls env bucket keyName uploadId etags, ?_⟩
  unfold commitStep
  simp only
  split <;> simp_all


/-! ## The invariant holds in every reachable state -/

theorem MainPc.eq_waitEndUpload {σ : Type} (m : MainPc σ) (h1 : m.pastEndRead = true)
    (h2 : m.pastEndUpload = false) : m = .waitEndUpload := by
  cases m <;> simp_all [MainPc.pastEndRead, MainPc.pastEndUpload]

theorem inv_start {σ : Type} (env : Env σ) (localPath bucket : String) (st0 : State σ)
    (h : start env localPath bucket = .ok st0) :
    ∃ file, env.Open localPath = .ok file ∧ st0.main = .reading file firstPartNumber ∧
      st0.workers = [] ∧ Inv env file st0.sess st0 := by
  unfold start at h
  simp only at h
  split at h
  · cases h
  · split at h
    · cases h
    · split at h
      · cases h
      · rename_i file hopen
        injection h with h
        subst h
        refine ⟨file, hopen, rfl, rfl, ⟨rfl, ?_, ?_, ?_, ?_⟩⟩
        · constructor <;>
            simp [MainPc.slotInHand, CollectorPc.slotOwed, MainPc.pastEndRead,
              MainPc.pastEndUpload, CollectorPc.pastSignal, maxWorkers]
        · constructor <;> simp
        · simp [loopLink, dispatched]
        · constructor <;> simp [crashCause, committed]

theorem inv_stepCollector {σ : Type} {env : Env σ} {file : σ} {sess : Session}
    {st st' : State σ} (hinv : Inv env file sess st) (hh : halted st = false)
    (h : stepCollector st = some st') : Inv env file sess st' := by
  obtain ⟨sess_eq, ctrl, data, loop, fin⟩ := hinv
  obtain ⟨sess0, main, workers, collector, done, etags, wc, tb, ucalls, ccalls, crashed⟩ := st
  have hcr : crashed = none := by
    unfold halted at hh
    cases crashed <;> simp_all
  subst hcr
  simp only at sess_eq ctrl data loop fin
  obtain ⟨slots, cap, done_eq, signal_eq, checkEnd_main, signal_main, past_empty, select_done⟩ :=
    ctrl
  unfold stepCollector at h
  cases collector <;> simp only [] at h
  · cases h
  · -- release
    split at h
    · injection h with h; subst h
      refine ⟨sess_eq, ?_, data, loop, fin⟩
      constructor <;> simp_all [CollectorPc.slotOwed, CollectorPc.pastSignal] <;> omega
    · cases h
  · -- checkEtag
    split at h <;> injection h with h <;> subst h
    · rename_i hc
      simp only [Bool.and_eq_true, beq_iff_eq] at hc
      refine ⟨sess_eq, ?_, data, loop, fin⟩
      have hm : main = .waitEndUpload :=
        MainPc.eq_waitEndUpload main (by rw [← done_eq]; exact hc.1) signal_eq.symm
      constructor <;> simp_all [CollectorPc.slotOwed, CollectorPc.pastSignal]
    · rename_i hc
      simp only [Bool.and_eq_true, beq_iff_eq, not_and] at hc
      refine ⟨sess_eq, ?_, data, loop, fin⟩
      constructor <;> simp_all [CollectorPc.slotOwed, CollectorPc.pastSignal]
      intro hd; have := hc hd; omega
  · -- checkEnd
    have hm : main = .waitEndUpload := checkEnd_main rfl
    split at h <;> injection h with h <;> subst h
    · rename_i hc
      simp only [beq_iff_eq] at hc
      refine ⟨sess_eq, ?_, data, loop, fin⟩
      constructor <;> simp_all [CollectorPc.slotOwed, CollectorPc.pastSignal]
    · rename_i hc
      simp only [beq_iff_eq] at hc
      refine ⟨sess_eq, ?_, data, loop, fin⟩
      constructor <;> simp_all [CollectorPc.slotOwed, CollectorPc.pastSignal]
      omega
  · -- signal
    obtain ⟨hm, hwc⟩ := signal_main rfl
    subst hm
    simp only at h
    injection h with h; subst h
    refine ⟨sess_eq, ?_, data, ?_, ?_⟩
    · constructor <;>
        simp_all [CollectorPc.slotOwed, CollectorPc.pastSignal, MainPc.slotInHand,
          MainPc.pastEndRead, MainPc.pastEndUpload]
    · simpa [loopLink] using loop
    · obtain ⟨crash, complete, returned_ok⟩ := fin
      constructor <;> simp_all [crashCause, committed]
  · -- cleanup
    split at h <;> injection h with h <;> subst h <;>
      refine ⟨sess_eq, ?_, data, loop, fin⟩ <;>
      constructor <;> simp_all [CollectorPc.slotOwed, CollectorPc.pastSignal]
  · cases h


theorem readLoop_succ_eof {σ : Type} (B : Nat) (read : Reader σ) (fuel : Nat) (s : σ) (pn : Int)
    (h : (read (makeBuf B) s).1.err = .eof) :
    readLoop B read (fuel + 1) s pn = ([], .endRead) := by
  unfold readLoop
  simp only [h]

theorem readLoop_succ_nil {σ : Type} (B : Nat) (read : Reader σ) (fuel : Nat) (s : σ) (pn : Int)
    (h : (read (makeBuf B) s).1.err = .nil) :
    readLoop B read (fuel + 1) s pn =
      (⟨(read (makeBuf B) s).1.buf.take (read (makeBuf B) s).1.bytesRead, pn⟩ ::
          (readLoop B read fuel (read (makeBuf B) s).2 (wrapInt64 (pn + 1))).1,
        (readLoop B read fuel (read (makeBuf B) s).2 (wrapInt64 (pn + 1))).2) := by
  conv_lhs => unfold readLoop
  simp only [h]

theorem readLoop_succ_other {σ : Type} (B : Nat) (read : Reader σ) (fuel : Nat) (s : σ) (pn : Int)
    (msg : String) (h : (read (makeBuf B) s).1.err = .other msg) :
    readLoop B read (fuel + 1) s pn = ([], .panicked msg) := by
  unfold readLoop
  simp only [h]

theorem commitStep_error {σ : Type} (env : Env σ) (bucket keyName uploadId : String)
    (etags : List CompletedPart) (p : Panic)
    (h : (commitStep env bucket keyName uploadId etags).result = .error p) :
    ∃ msg, p = .completeMultipartUpload msg := by
  unfold commitStep at h
  simp only at h
  split at h
  · simp only [Except.error.injEq] at h
    exact ⟨_, h.symm⟩
  · cases h

theorem inv_stepMain {σ : Type} {env : Env σ} {file : σ} {sess : Session}
    {st st' : State σ} (hinv : Inv env file sess st) (hh : halted st = false)
    (h : stepMain env st = some st') : Inv env file sess st' := by
  obtain ⟨sess_eq, ctrl, data, loop, fin⟩ := hinv
  obtain ⟨sess0, main, workers, collector, done, etags, wc, tb, ucalls, ccalls, crashed⟩ := st
  have hcr : crashed = none := by
    unfold halted at hh
    cases crashed <;> simp_all
  subst hcr
  simp only at sess_eq ctrl data loop fin
  obtain ⟨slots, cap, done_eq, signal_eq, checkEnd_main, signal_main, past_empty, select_done⟩ :=
    ctrl
  obtain ⟨crash, complete, returned_ok⟩ := fin
  unfold stepMain at h
  cases main <;> simp only [] at h
  · -- reading
    rename_i s pn
    split at h <;> injection h with h <;> subst h <;> rename_i herr
    · -- eof
      refine ⟨sess_eq, ?_, data, ?_, ?_⟩
      · constructor <;>
          simp_all [MainPc.slotInHand, MainPc.pastEndRead, MainPc.pastEndUpload]
      · simp only [loopLink] at loop ⊢
        intro fuel
        have := loop (fuel + 1)
        rw [readLoop_succ_eof _ _ _ _ _ herr] at this
        rw [Nat.add_assoc, Nat.add_comm 1 fuel]
        simpa using this
      · constructor <;> simp_all [crashCause, committed]
    · -- other error
      refine ⟨sess_eq, ?_, data, loop, ?_⟩
      · constructor <;> assumption
      · constructor <;> simp_all [crashCause, committed]
    · -- nil
      refine ⟨sess_eq, ?_, data, ?_, ?_⟩
      · constructor <;>
          simp_all [MainPc.slotInHand, MainPc.pastEndRead, MainPc.pastEndUpload]
      · simp only [loopLink] at loop ⊢
        intro fuel
        have := loop (fuel + 1)
        rw [readLoop_succ_nil _ _ _ _ _ herr] at this
        rw [Nat.add_assoc, Nat.add_comm 1 fuel]
        exact this
      · constructor <;> simp_all [crashCause, committed]
  · -- sendEndRead
    have hnp : collector.pastSignal = false := by
      rw [signal_eq]; rfl
    split at h
    · rename_i hcl
      cases collector <;> simp [endReadClosed, CollectorPc.pastSignal] at hcl hnp
    · split at h
      · injection h with h; subst h
        refine ⟨sess_eq, ?_, data, ?_, ?_⟩
        · constructor <;>
            simp_all [MainPc.slotInHand, MainPc.pastEndRead, MainPc.pastEndUpload,
              CollectorPc.slotOwed, CollectorPc.pastSignal]
        · simpa [loopLink] using loop
        · constructor <;> simp_all [crashCause, committed]
      · cases h
  · -- acquire
    have hnp : collector.pastSignal = false := by
      rw [signal_eq]; rfl
    split at h
    · rename_i hcl
      cases collector <;> simp [workersCtrlClosed, CollectorPc.pastSignal] at hcl hnp
    · split at h
      · injection h with h; subst h
        rename_i hlt
        refine ⟨sess_eq, ?_, data, ?_, ?_⟩
        · constructor <;>
            simp_all [MainPc.slotInHand, MainPc.pastEndRead, MainPc.pastEndUpload] <;> omega
        · simpa [loopLink] using loop
        · constructor <;> simp_all [crashCause, committed]
      · cases h
  · -- spawn
    injection h with h; subst h
    obtain ⟨etags_perm, sending_ok, failed_err, calls_perm⟩ := data
    refine ⟨sess_eq, ?_, ?_, ?_, ?_⟩
    · constructor <;>
        simp_all [MainPc.slotInHand, MainPc.pastEndRead, MainPc.pastEndUpload,
          List.countP_append, Worker.reported]
    · constructor
      · simpa [List.filter_append, Worker.reported] using etags_perm
      · intro w hw etag hpc
        rcases List.mem_append.mp hw with hw | hw
        · exact sending_ok w hw etag hpc
        · simp only [List.mem_singleton] at hw; subst hw; cases hpc
      · intro w hw msg hpc
        rcases List.mem_append.mp hw with hw | hw
        · exact failed_err w hw msg hpc
        · simp only [List.mem_singleton] at hw; subst hw; cases hpc
      · simpa [List.filter_append, Worker.called] using calls_perm
    · simp only [loopLink] at loop ⊢
      intro fuel
      have := loop fuel
      simpa [dispatched, Worker.chunk] using this
    · constructor <;> simp_all [crashCause, committed]
  · -- waitEndUpload
    have hnp : collector.pastSignal = false := by
      rw [signal_eq]; rfl
    split at h
    · rename_i hcl
      cases collector <;> simp [endUploadClosed, CollectorPc.pastSignal] at hcl hnp
    · cases h
  · -- commit
    have hcc : ccalls = [] := by simpa [committed] using complete
    subst hcc
    split at h <;> injection h with h <;> subst h <;> rename_i hres
    · refine ⟨sess_eq, ?_, data, ?_, ?_⟩
      · exact ⟨(by simpa [MainPc.slotInHand] using slots), cap,
          (by simpa [MainPc.pastEndRead] using done_eq),
          (by simpa [MainPc.pastEndUpload] using signal_eq),
          (fun hc => by cases checkEnd_main hc), (fun hc => by cases (signal_main hc).1),
          past_empty, select_done⟩
      · simpa [loopLink] using loop
      · subst sess_eq
        refine ⟨trivial, ?_, ?_⟩
        · simp only [committed, List.nil_append, if_true]
        · intro out hout
          injection hout with hout
          subst hout
          exact hres
    · obtain ⟨msg, rfl⟩ := commitStep_error _ _ _ _ _ _ hres
      subst sess_eq
      refine ⟨rfl, ?_, data, loop, ?_⟩
      · exact ⟨slots, cap, done_eq, signal_eq, checkEnd_main, signal_main, past_empty,
          select_done⟩
      · refine ⟨⟨rfl, hres⟩, ?_, ?_⟩
        · simp only [committed, List.nil_append, if_true]
        · intro out hout
          cases hout
  · -- returned
    cases h


theorem getElem?_decomp {α : Type} {l : List α} {i : Nat} {w : α} (h : l[i]? = some w) :
    ∃ l1 l2, l = l1 ++ w :: l2 ∧ l1.length = i ∧ ∀ w', l.set i w' = l1 ++ w' :: l2 := by
  obtain ⟨hi, hw⟩ := List.getElem?_eq_some.mp h
  refine ⟨l.take i, l.drop (i + 1), ?_, ?_, ?_⟩
  · rw [← hw]
    simp
  · simp [List.length_take]; omega
  · intro w'
    rw [List.set_eq_take_append_cons_drop, if_pos hi]

theorem committed_of_not_complete {σ : Type} (main : MainPc σ) (p : Panic)
    (hp : ∀ msg, p ≠ .completeMultipartUpload msg) : committed main (some p) = committed main none := by
  cases main <;> cases p <;> simp_all [committed]

theorem filter_map_replace {α β : Type} (p : α → Bool) (f : α → β) (l1 l2 : List α) (w w' : α)
    (hp : p w = p w') (hf : f w = f w') :
    ((l1 ++ w' :: l2).filter p).map f = ((l1 ++ w :: l2).filter p).map f := by
  simp only [List.filter_append, List.filter_cons, hp, List.map_append]
  split <;> simp [hf]

theorem perm_filter_map_insert {α β : Type} (p : α → Bool) (f : α → β) (l1 l2 : List α)
    (w w' : α) (xs : List β) (hw : p w = false) (hw' : p w' = true)
    (h : xs.Perm (((l1 ++ w :: l2).filter p).map f)) :
    (xs ++ [f w']).Perm (((l1 ++ w' :: l2).filter p).map f) := by
  simp only [List.filter_append, List.filter_cons, hw, hw', List.map_append, if_true,
    List.map_cons] at h ⊢
  refine (h.append_right [f w']).trans ?_
  simp only [Bool.false_eq_true, if_false, List.append_assoc]
  refine List.Perm.append_left _ ?_
  exact (List.perm_append_comm).trans (by simp)

theorem countP_replace {α : Type} (p : α → Bool) (l1 l2 : List α) (w w' : α) (hp : p w = p w') :
    (l1 ++ w' :: l2).countP p = (l1 ++ w :: l2).countP p := by
  simp [List.countP_append, List.countP_cons, hp]

theorem countP_insert {α : Type} (p : α → Bool) (l1 l2 : List α) (w w' : α)
    (hw : p w = false) (hw' : p w' = true) :
    (l1 ++ w' :: l2).countP p = (l1 ++ w :: l2).countP p + 1 := by
  simp [List.countP_append, List.countP_cons, hw, hw']
  omega

theorem map_chunk_replace (l1 l2 : List Worker) (w w' : Worker) (h : w'.chunk = w.chunk) :
    (l1 ++ w' :: l2).map Worker.chunk = (l1 ++ w :: l2).map Worker.chunk := by
  simp [h]

theorem forall_mem_replace {α : Type} (P : α → Prop) (l1 l2 : List α) (w w' : α)
    (h : ∀ x ∈ l1 ++ w :: l2, P x) (hw' : P w') : ∀ x ∈ l1 ++ w' :: l2, P x := by
  intro x hx
  simp only [List.mem_append, List.mem_cons] at hx
  rcases hx with hx | hx | hx
  · exact h x (by simp [hx])
  · subst hx; exact hw'
  · exact h x (by simp [hx])


theorem MainPc.slotInHand_of_pastEndUpload {σ : Type} (m : MainPc σ)
    (h : m.pastEndUpload = true) : m.slotInHand = 0 := by
  cases m <;> first | rfl | cases h

theorem CollectorPc.slotOwed_of_pastSignal (c : CollectorPc) (h : c.pastSignal = true) :
    c.slotOwed = 0 := by
  cases c <;> first | rfl | cases h

theorem pastSignal_of_etagschanClosed (c : CollectorPc) (h : etagschanClosed c = true) :
    c.pastSignal = true := by
  cases c <;> first | rfl | cases h

theorem committed_none_of_not_pastEndUpload {σ : Type} (m : MainPc σ)
    (h : m.pastEndUpload = false) : committed m none = false := by
  cases m <;> first | rfl | cases h

theorem ne_returned_of_not_pastEndUpload {σ : Type} (m : MainPc σ)
    (h : m.pastEndUpload = false) (out : CompleteMultipartUploadOutput) : m ≠ .returned out := by
  intro hm
  subst hm
  cases h

theorem inv_stepWorker {σ : Type} {env : Env σ} {file : σ} {sess : Session}
    {st st' : State σ} (i : Nat) (hinv : Inv env file sess st) (hh : halted st = false)
    (h : stepWorker env st i = some st') : Inv env file sess st' := by
  obtain ⟨sess_eq, ctrl, data, loop, fin⟩ := hinv
  obtain ⟨sess0, main, workers, collector, done, etags, wc, tb, ucalls, ccalls, crashed⟩ := st
  have hcr : crashed = none := by
    unfold halted at hh
    cases crashed <;> simp_all
  subst hcr
  simp only at sess_eq ctrl data fin
  simp only [dispatched] at loop
  subst sess_eq
  obtain ⟨slots, cap, done_eq, signal_eq, checkEnd_main, signal_main, past_empty, select_done⟩ :=
    ctrl
  obtain ⟨crash, complete, returned_ok⟩ := fin
  obtain ⟨etags_perm, sending_ok, failed_err, calls_perm⟩ := data
  unfold stepWorker at h
  simp only at h
  split at h
  · cases h
  · rename_i w hw
    obtain ⟨l1, l2, rfl, hl1, hset⟩ := getElem?_decomp hw
    obtain ⟨buf, pn, pc⟩ := w
    cases pc <;> simp only [] at h
    · -- uploading
      split at h <;> injection h with h <;> subst h <;> rename_i res hres <;>
        simp only [hset]
      · refine ⟨rfl, ?_, ?_, ?_, ?_⟩ <;> dsimp only [dispatched]
        · refine ⟨?_, cap, done_eq, signal_eq, checkEnd_main, signal_main, past_empty,
            select_done⟩
          rw [countP_replace Worker.reported l1 l2 ⟨buf, pn, .uploading⟩ ⟨buf, pn, .failed res⟩ rfl]
          simpa using slots
        · refine ⟨?_, ?_, ?_, ?_⟩
          · rw [filter_map_replace Worker.reported (completedPart env sess0) l1 l2 ⟨buf, pn, .uploading⟩ ⟨buf, pn, .failed res⟩ rfl rfl]
            exact etags_perm
          · exact forall_mem_replace _ l1 l2 _ _ sending_ok (fun etag hpc => by cases hpc)
          · refine forall_mem_replace _ l1 l2 _ _ failed_err (fun msg hpc => ?_)
            injection hpc with hpc; subst hpc; exact hres
          · exact perm_filter_map_insert Worker.called (uploadPartInput sess0) l1 l2 ⟨buf, pn, .uploading⟩ ⟨buf, pn, .failed res⟩ _ rfl rfl
              calls_perm
        · rw [map_chunk_replace l1 l2 ⟨buf, pn, .uploading⟩ ⟨buf, pn, .failed res⟩ rfl]
          exact loop
        · exact ⟨trivial, complete, returned_ok⟩
      · refine ⟨rfl, ?_, ?_, ?_, ?_⟩ <;> dsimp only [dispatched]
        · refine ⟨?_, cap, done_eq, signal_eq, checkEnd_main, signal_main, past_empty,
            select_done⟩
          rw [countP_replace Worker.reported l1 l2 ⟨buf, pn, .uploading⟩ ⟨buf, pn, .sending res⟩ rfl]
          simpa using slots
        · refine ⟨?_, ?_, ?_, ?_⟩
          · rw [filter_map_replace Worker.reported (completedPart env sess0) l1 l2 ⟨buf, pn, .uploading⟩ ⟨buf, pn, .sending res⟩ rfl rfl]
            exact etags_perm
          · refine forall_mem_replace _ l1 l2 _ _ sending_ok (fun etag hpc => ?_)
            injection hpc with hpc; subst hpc; exact hres
          · exact forall_mem_replace _ l1 l2 _ _ failed_err (fun msg hpc => by cases hpc)
          · exact perm_filter_map_insert Worker.called (uploadPartInput sess0) l1 l2 ⟨buf, pn, .uploading⟩ ⟨buf, pn, .sending res⟩ _ rfl rfl
              calls_perm
        · rw [map_chunk_replace l1 l2 ⟨buf, pn, .uploading⟩ ⟨buf, pn, .sending res⟩ rfl]
          exact loop
        · exact ⟨trivial, complete, returned_ok⟩
    · -- failed
      rename_i msg
      injection h with h; subst h
      refine ⟨rfl, ⟨slots, cap, done_eq, signal_eq, checkEnd_main, signal_main, past_empty,
        select_done⟩, ⟨etags_perm, sending_ok, failed_err, calls_perm⟩, loop, ?_⟩
      refine ⟨⟨⟨buf, pn, .failed msg⟩, by simp, rfl, rfl⟩, ?_, returned_ok⟩
      rw [committed_of_not_complete main _ (by intro m hm; cases hm)]
      exact complete
    · -- sending
      rename_i etag
      split at h
      · -- a send on the closed `etagschan` cannot happen
        rename_i hcl
        exfalso
        have hp : collector.pastSignal = true := pastSignal_of_etagschanClosed _ hcl
        have hwc := past_empty hp
        have h1 : main.slotInHand = 0 :=
          MainPc.slotInHand_of_pastEndUpload main (by rw [← signal_eq]; exact hp)
        have h2 : collector.slotOwed = 0 := CollectorPc.slotOwed_of_pastSignal _ hp
        have h3 : (l1 ++ (⟨buf, pn, .sending etag⟩ : Worker) :: l2).countP Worker.reported
            = (l1 ++ (⟨buf, pn, .sending etag⟩ : Worker) :: l2).length := by omega
        have := List.countP_eq_length.mp h3 ⟨buf, pn, .sending etag⟩ (by simp)
        simp [Worker.reported] at this
      · split at h
        · rename_i hsel
          injection h with h; subst h
          simp only [hset]
          have hok := sending_ok ⟨buf, pn, .sending etag⟩ (by simp) etag rfl
          refine ⟨rfl, ?_, ?_, ?_, ?_⟩ <;> dsimp only [dispatched]
          · refine ⟨?_, cap, done_eq, ?_, ?_, ?_, ?_, ?_⟩
            · rw [countP_insert Worker.reported l1 l2 ⟨buf, pn, .sending etag⟩
                ⟨buf, pn, .counting⟩ rfl rfl]
              simp only [CollectorPc.slotOwed] at slots ⊢
              simp only [List.length_append, List.length_cons] at slots ⊢
              omega
            · simpa [CollectorPc.pastSignal] using signal_eq
            · intro hc; cases hc
            · intro hc; cases hc
            · intro hc; simp [CollectorPc.pastSignal] at hc
            · intro hc; cases hc
          · refine ⟨?_, ?_, ?_, ?_⟩
            · have := perm_filter_map_insert Worker.reported (completedPart env sess0) l1 l2
                ⟨buf, pn, .sending etag⟩ ⟨buf, pn, .counting⟩ _ rfl rfl etags_perm
              have hcp : completedPart env sess0 ⟨buf, pn, .counting⟩ =
                  some { ETag := etag, PartNumber := pn } := by
                unfold completedPart
                have : uploadPartInput sess0 ⟨buf, pn, .counting⟩ =
                    uploadPartInput sess0 ⟨buf, pn, .sending etag⟩ := rfl
                rw [this, hok]
              rw [hcp] at this
              simpa using this
            · exact forall_mem_replace _ l1 l2 _ _ sending_ok (fun etag hpc => by cases hpc)
            · exact forall_mem_replace _ l1 l2 _ _ failed_err (fun msg hpc => by cases hpc)
            · rw [filter_map_replace Worker.called (uploadPartInput sess0) l1 l2
                ⟨buf, pn, .sending etag⟩ ⟨buf, pn, .counting⟩ rfl rfl]
              exact calls_perm
          · rw [map_chunk_replace l1 l2 ⟨buf, pn, .sending etag⟩ ⟨buf, pn, .counting⟩ rfl]
            exact loop
          · have hnp : main.pastEndUpload = false := by
              rw [← signal_eq]; rfl
            have hnc := committed_none_of_not_pastEndUpload main hnp
            refine ⟨trivial, ?_, ?_⟩
            · rw [hnc] at complete ⊢
              simpa using complete
            · intro out hout
              exact absurd hout (ne_returned_of_not_pastEndUpload main hnp out)
        · cases h
    · -- counting
      injection h with h; subst h
      simp only [hset]
      refine ⟨rfl, ?_, ?_, ?_, ?_⟩ <;> dsimp only [dispatched]
      · refine ⟨?_, cap, done_eq, signal_eq, checkEnd_main, signal_main, past_empty,
          select_done⟩
        rw [countP_replace Worker.reported l1 l2 ⟨buf, pn, .counting⟩ ⟨buf, pn, .exited⟩ rfl]
        simpa using slots
      · refine ⟨?_, ?_, ?_, ?_⟩
        · rw [filter_map_replace Worker.reported (completedPart env sess0) l1 l2 ⟨buf, pn, .counting⟩ ⟨buf, pn, .exited⟩ rfl rfl]
          exact etags_perm
        · exact forall_mem_replace _ l1 l2 _ _ sending_ok (fun etag hpc => by cases hpc)
        · exact forall_mem_replace _ l1 l2 _ _ failed_err (fun msg hpc => by cases hpc)
        · rw [filter_map_replace Worker.called (uploadPartInput sess0) l1 l2 ⟨buf, pn, .counting⟩ ⟨buf, pn, .exited⟩ rfl rfl]
          exact calls_perm
      · rw [map_chunk_replace l1 l2 ⟨buf, pn, .counting⟩ ⟨buf, pn, .exited⟩ rfl]
        exact loop
      · exact ⟨trivial, complete, returned_ok⟩
    · cases h


theorem halted_false_of_step {σ : Type} {env : Env σ} {st st' : State σ} {a : Action}
    (h : step env st a = some st') : halted st = false := by
  unfold step at h
  split at h
  · cases h
  · rename_i hh
    simpa using hh

theorem inv_step {σ : Type} {env : Env σ} {file : σ} {sess : Session}
    {st st' : State σ} (a : Action) (hinv : Inv env file sess st)
    (h : step env st a = some st') : Inv env file sess st' := by
  have hh := halted_false_of_step h
  unfold step at h
  rw [hh] at h
  simp only [Bool.false_eq_true, if_false] at h
  cases a with
  | main => exact inv_stepMain hinv hh h
  | worker i => exact inv_stepWorker i hinv hh h
  | collector => exact inv_stepCollector hinv hh h

theorem inv_run {σ : Type} {env : Env σ} {file : σ} {sess : Session} (sched : List Action) :
    ∀ {st st' : State σ}, Inv env file sess st → run env st sched = some st' →
      Inv env file sess st' := by
  induction sched with
  | nil =>
    intro st st' hinv h
    simp only [run, Option.some.injEq] at h
    subst h; exact hinv
  | cons a rest ih =>
    intro st st' hinv h
    simp only [run] at h
    split at h
    · cases h
    · rename_i st1 hst1
      exact ih (inv_step a hinv hst1) h

theorem sess_of_start {σ : Type} (env : Env σ) (localPath bucket : String) (st0 : State σ)
    (h : start env localPath bucket = .ok st0) :
    st0.sess.bucket = bucket ∧ st0.sess.keyName = env.Base localPath ∧
      env.CreateMultipartUpload { Bucket := bucket, Key := env.Base localPath }
        = .ok st0.sess.uploadId := by
  unfold start at h
  simp only at h
  split at h
  · cases h
  · split at h
    · cases h
    · split at h
      · cases h
      · rename_i uploadId hcreate _ _ _
        injection h with h
        subst h
        exact ⟨rfl, rfl, hcreate⟩

theorem inv_reachable {σ : Type} {env : Env σ} {localPath bucket : String} {st : State σ}
    (h : Reachable env localPath bucket st) :
    ∃ file st0, env.Open localPath = .ok file ∧ start env localPath bucket = .ok st0 ∧
      st.sess = st0.sess ∧ Inv env file st0.sess st := by
  obtain ⟨st0, sched, hstart, hrun⟩ := h
  obtain ⟨file, hopen, _, _, hinv⟩ := inv_start env localPath bucket st0 hstart
  have := inv_run sched hinv hrun
  exact ⟨file, st0, hopen, hstart, this.sess_eq, this⟩


/-! ## Bounded concurrency and the moment of the commit -/

theorem reachable_of_runFrom {σ : Type} (env : Env σ) (localPath bucket : String)
    (sched : List Action) {st : State σ} (h : runFrom env localPath bucket sched = some st) :
    Reachable env localPath bucket st := by
  unfold runFrom at h
  split at h
  · cases h
  · rename_i st0 hst0
    exact ⟨st0, sched, hst0, h⟩

theorem inFlight_add_reported {σ : Type} (st : State σ) :
    inFlight st + st.workers.countP Worker.reported = st.workers.length := by
  unfold inFlight
  have := List.length_eq_countP_add_countP (p := Worker.reported) st.workers
  have h2 : st.workers.countP (fun a => decide ¬Worker.reported a = true)
      = st.workers.countP (fun w => !w.reported) := by
    congr 1
    funext w
    cases w.reported <;> simp
  omega

theorem uploading_le_inFlight {σ : Type} (st : State σ) : uploading st ≤ inFlight st := by
  unfold uploading inFlight
  apply List.countP_mono_left
  intro w _ hw
  obtain ⟨buf, pn, pc⟩ := w
  cases pc <;> simp_all [Worker.called, Worker.reported]

theorem workers_length_of_step {σ : Type} {env : Env σ} {st st' : State σ} {a : Action}
    (h : step env st a = some st') (hlen : st'.workers.length ≠ st.workers.length) :
    st.main.slotInHand = 1 ∧ a = .main := by
  have hh := halted_false_of_step h
  unfold step at h
  rw [hh] at h
  simp only [Bool.false_eq_true, if_false] at h
  cases a with
  | main =>
    refine ⟨?_, rfl⟩
    simp only at h
    unfold stepMain at h
    split at h
    · simp only at h
      split at h <;> injection h with h <;> subst h <;> exact absurd rfl hlen
    · split at h
      · injection h with h; subst h; exact absurd rfl hlen
      · split at h
        · injection h with h; subst h; exact absurd rfl hlen
        · cases h
    · split at h
      · injection h with h; subst h; exact absurd rfl hlen
      · split at h
        · injection h with h; subst h; exact absurd rfl hlen
        · cases h
    · rename_i hm
      rw [hm]; rfl
    · split at h
      · injection h with h; subst h; exact absurd rfl hlen
      · cases h
    · simp only at h
      split at h <;> injection h with h <;> subst h <;> exact absurd rfl hlen
    · cases h
  | worker i =>
    exfalso
    simp only at h
    unfold stepWorker at h
    simp only at h
    split at h
    · cases h
    · split at h
      · split at h <;> injection h with h <;> subst h <;> simp at hlen
      · injection h with h; subst h; exact hlen rfl
      · split at h
        · injection h with h; subst h; exact hlen rfl
        · split at h
          · injection h with h; subst h; simp at hlen
          · cases h
      · injection h with h; subst h; simp at hlen
      · cases h
  | collector =>
    exfalso
    simp only at h
    unfold stepCollector at h
    split at h
    · cases h
    · split at h
      · injection h with h; subst h; exact hlen rfl
      · cases h
    · split at h <;> injection h with h <;> subst h <;> exact hlen rfl
    · split at h <;> injection h with h <;> subst h <;> exact hlen rfl
    · split at h
      · injection h with h; subst h; exact hlen rfl
      · cases h
    · split at h <;> injection h with h <;> subst h <;> exact hlen rfl
    · cases h

/-- C5: in every reachable state the upload workers started whose `CompletedPart` the collector
has not received each hold one element of `workersCtrl`, as does the chunk the main goroutine is
about to dispatch, so that they are at most `maxWorkers = 5`, and so are the `UploadPart` calls
in progress; a step that starts a worker is a step of the main goroutine holding a slot. -/
theorem C5_in_flight_at_most_maxWorkers {σ : Type} (env : Env σ) (localPath bucket : String)
    (st : State σ) (h : Reachable env localPath bucket st) :
    inFlight st + st.main.slotInHand + st.collector.slotOwed = st.workersCtrl ∧
    st.workersCtrl ≤ maxWorkers ∧ maxWorkers = 5 ∧
    inFlight st ≤ maxWorkers ∧ uploading st ≤ maxWorkers ∧
    (∀ a st', step env st a = some st' → st'.workers.length ≠ st.workers.length →
      a = .main ∧ st.main.slotInHand = 1 ∧ 0 < st.workersCtrl) := by
  obtain ⟨file, st0, _, _, _, hinv⟩ := inv_reachable h
  have hslots := hinv.ctrl.slots
  have hcap := hinv.ctrl.cap
  have hsum := inFlight_add_reported st
  have hup := uploading_le_inFlight st
  refine ⟨by omega, hcap, rfl, by omega, by omega, ?_⟩
  intro a st' hstep hlen
  obtain ⟨h1, h2⟩ := workers_length_of_step hstep hlen
  exact ⟨h2, h1, by omega⟩

/-- The statement of C5 in a state where five workers are in flight and the main goroutine
waits for a slot for the sixth chunk. -/
theorem C5_in_flight_at_most_maxWorkers_witness :
    ∃ st, runFrom (demoEnv 1 [1, 2, 3, 4, 5, 6] none) "file" "bucket"
        (List.replicate 16 Action.main) = some st ∧
      inFlight st = 5 ∧ step (demoEnv 1 [1, 2, 3, 4, 5, 6] none) st .main = none ∧
      inFlight st ≤ maxWorkers :=
  ⟨_, rfl, by decide, by decide,
    (C5_in_flight_at_most_maxWorkers (demoEnv 1 [1, 2, 3, 4, 5, 6] none) "file" "bucket" _
      (reachable_of_runFrom _ _ _ (List.replicate 16 Action.main) rfl)).2.2.2.1⟩


theorem MainPc.pastEndRead_of_pastEndUpload {σ : Type} (m : MainPc σ)
    (h : m.pastEndUpload = true) : m.pastEndRead = true := by
  cases m <;> first | rfl | cases h

theorem loopLink_of_pastEndRead {σ : Type} (env : Env σ) (file : σ) (m : MainPc σ)
    (chunks : List Chunk) (h : m.pastEndRead = true) (hl : loopLink env file m chunks) :
    ∀ fuel, readLoop env.B env.Read (chunks.length + 1 + fuel) file firstPartNumber =
      (chunks, .endRead) := by
  cases m <;> first | exact hl | cases h

theorem etags_length_of_inv {σ : Type} {env : Env σ} {file : σ} {sess : Session}
    {st : State σ} (hinv : Inv env file sess st) :
    st.etags.length = st.workers.countP Worker.reported := by
  have := hinv.data.etags_perm.length_eq
  simpa [List.countP_eq_length_filter] using this

theorem pastEndUpload_of_completeCalls {σ : Type} {env : Env σ} {file : σ} {sess : Session}
    {st : State σ} (hinv : Inv env file sess st) (h : st.completeCalls ≠ []) :
    st.main.pastEndUpload = true := by
  have hc := hinv.fin.complete
  have hcr := hinv.fin.crash
  by_cases hcom : committed st.main st.crashed = true
  · revert hcom hcr
    cases st.main <;> cases st.crashed <;> simp [committed, MainPc.pastEndUpload]
    all_goals
      rename_i p
      cases p <;> simp [crashCause]
  · rw [if_neg hcom] at hc
    exact absurd hc h

/-- The state the collector signals in: what the invariant gives for a state in which the collector
is at the send on `endUpload` or past it. -/
theorem signal_state_of_inv {σ : Type} {env : Env σ} {file : σ} {sess : Session}
    {st : State σ} (hinv : Inv env file sess st)
    (h : st.collector = .signal ∨ st.collector.pastSignal = true) :
    st.done = true ∧ st.workersCtrl = 0 ∧ st.etags.length = (dispatched st).length ∧
    (∀ w ∈ st.workers, w.reported = true) ∧ st.main.pastEndRead = true ∧
    (∀ fuel, readLoop env.B env.Read ((dispatched st).length + 1 + fuel) file firstPartNumber =
      (dispatched st, .endRead)) := by
  have hctrl := hinv.ctrl
  have hmain : st.main.pastEndRead = true ∧ st.main.slotInHand = 0 ∧ st.workersCtrl = 0 ∧
      st.collector.slotOwed = 0 := by
    rcases h with h | h
    · obtain ⟨hm, hwc⟩ := hctrl.signal_main h
      rw [hm, h]
      exact ⟨rfl, rfl, hwc, rfl⟩
    · have hm : st.main.pastEndUpload = true := by rw [← hctrl.signal_eq]; exact h
      exact ⟨MainPc.pastEndRead_of_pastEndUpload _ hm, MainPc.slotInHand_of_pastEndUpload _ hm,
        hctrl.past_empty h, CollectorPc.slotOwed_of_pastSignal _ h⟩
  obtain ⟨h1, h2, h3, h4⟩ := hmain
  have hslots := hctrl.slots
  have hall : st.workers.countP Worker.reported = st.workers.length := by omega
  refine ⟨by rw [hctrl.done_eq]; exact h1, h3, ?_, List.countP_eq_length.mp hall, h1,
    loopLink_of_pastEndRead env file st.main _ h1 hinv.loop⟩
  rw [etags_length_of_inv hinv, hall]
  simp [dispatched]

/-- C4: in every reachable state in which the collector is sending on `endUpload` or has done
so, `done` is set (the end-of-read signal was received), `workersCtrl` is empty, every worker
started has reported, `etags` has as many records as chunks were dispatched, and the read loop
has ended at end of file with exactly the dispatched chunks; and the main goroutine is past its
receive from `endUpload`, or a `CompleteMultipartUpload` call has been made, only in such a
state. -/
theorem C4_commit_only_after_all_reported {σ : Type} (env : Env σ) (localPath bucket : String)
    (st : State σ) (h : Reachable env localPath bucket st) :
    ((st.collector = .signal ∨ st.collector.pastSignal = true) →
      st.done = true ∧ st.workersCtrl = 0 ∧ st.etags.length = (dispatched st).length ∧
      (∀ w ∈ st.workers, w.reported = true) ∧ st.main.pastEndRead = true ∧
      ∃ file, env.Open localPath = .ok file ∧
        ∀ fuel, readLoop env.B env.Read ((dispatched st).length + 1 + fuel) file firstPartNumber =
          (dispatched st, .endRead)) ∧
    ((st.main.pastEndUpload = true ∨ st.completeCalls ≠ []) →
      st.collector.pastSignal = true) := by
  obtain ⟨file, st0, hopen, _, _, hinv⟩ := inv_reachable h
  constructor
  · intro hs
    obtain ⟨h1, h2, h3, h4, h5, h6⟩ := signal_state_of_inv hinv hs
    exact ⟨h1, h2, h3, h4, h5, file, hopen, h6⟩
  · intro hc
    have hm : st.main.pastEndUpload = true := by
      rcases hc with hc | hc
      · exact hc
      · exact pastEndUpload_of_completeCalls hinv hc
    rw [hinv.ctrl.signal_eq]; exact hm

/-- The statement of C4 in the state where the collector sends on `endUpload`, after the two
chunks of a file of three bytes have been uploaded and reported. -/
theorem C4_commit_only_after_all_reported_witness :
    ∃ st, runFrom (demoEnv 2 [1, 2, 3] none) "file" "bucket"
        [.main, .main, .main, .main, .main, .main, .main, .worker 1, .worker 1, .collector,
          .collector, .worker 0, .worker 0, .collector, .collector, .main, .collector] = some st ∧
      st.collector = .signal ∧ st.etags.length = 2 ∧ (dispatched st).length = 2 ∧
      st.workersCtrl = 0 :=
  ⟨_, rfl, by decide, by decide, by decide,
    ((C4_commit_only_after_all_reported (demoEnv 2 [1, 2, 3] none) "file" "bucket" _
      (reachable_of_runFrom _ _ _ [.main, .main, .main, .main, .main, .main, .main,
        .worker 1, .worker 1, .collector, .collector, .worker 0, .worker 0, .collector,
        .collector, .main, .collector] rfl)).1 (Or.inl (by decide))).2.1⟩


/-! ## A failed upload -/

theorem uploadCalls_mono_step {σ : Type} {env : Env σ} {st st' : State σ} {a : Action}
    (h : step env st a = some st') : ∀ x ∈ st.uploadCalls, x ∈ st'.uploadCalls := by
  have hh := halted_false_of_step h
  unfold step at h
  rw [hh] at h
  simp only [Bool.false_eq_true, if_false] at h
  intro x hx
  cases a with
  | main =>
    simp only at h
    unfold stepMain at h
    split at h
    · simp only at h
      split at h <;> injection h with h <;> subst h <;> exact hx
    · split at h
      · injection h with h; subst h; exact hx
      · split at h
        · injection h with h; subst h; exact hx
        · cases h
    · split at h
      · injection h with h; subst h; exact hx
      · split at h
        · injection h with h; subst h; exact hx
        · cases h
    · injection h with h; subst h; exact hx
    · split at h
      · injection h with h; subst h; exact hx
      · cases h
    · simp only at h
      split at h <;> injection h with h <;> subst h <;> exact hx
    · cases h
  | worker i =>
    simp only at h
    unfold stepWorker at h
    simp only at h
    split at h
    · cases h
    · split at h
      · split at h <;> injection h with h <;> subst h <;> simp [hx]
      · injection h with h; subst h; exact hx
      · split at h
        · injection h with h; subst h; exact hx
        · split at h
          · injection h with h; subst h; exact hx
          · cases h
      · injection h with h; subst h; exact hx
      · cases h
  | collector =>
    simp only at h
    unfold stepCollector at h
    split at h
    · cases h
    · split at h
      · injection h with h; subst h; exact hx
      · cases h
    · split at h <;> injection h with h <;> subst h <;> exact hx
    · split at h <;> injection h with h <;> subst h <;> exact hx
    · split at h
      · injection h with h; subst h; exact hx
      · cases h
    · split at h <;> injection h with h <;> subst h <;> exact hx
    · cases h

theorem uploadCalls_mono_run {σ : Type} {env : Env σ} (sched : List Action) :
    ∀ {st st' : State σ}, run env st sched = some st' →
      ∀ x ∈ st.uploadCalls, x ∈ st'.uploadCalls := by
  induction sched with
  | nil =>
    intro st st' h
    simp only [run, Option.some.injEq] at h
    subst h; exact fun x hx => hx
  | cons a rest ih =>
    intro st st' h x hx
    simp only [run] at h
    split at h
    · cases h
    · rename_i st1 hst1
      exact ih h x (uploadCalls_mono_step hst1 x hx)

theorem run_append {σ : Type} {env : Env σ} (s1 s2 : List Action) :
    ∀ {st st1 : State σ}, run env st s1 = some st1 →
      run env st (s1 ++ s2) = run env st1 s2 := by
  induction s1 with
  | nil =>
    intro st st1 h
    simp only [run, Option.some.injEq] at h
    subst h; rfl
  | cons a rest ih =>
    intro st st1 h
    simp only [run, List.cons_append] at h ⊢
    split at h
    · cases h
    · rename_i st2 hst2
      exact ih h

theorem reachable_run {σ : Type} {env : Env σ} {localPath bucket : String} {st st' : State σ}
    (sched : List Action) (h : Reachable env localPath bucket st)
    (hrun : run env st sched = some st') : Reachable env localPath bucket st' := by
  obtain ⟨st0, s0, hstart, h0⟩ := h
  exact ⟨st0, s0 ++ sched, hstart, by rw [run_append s0 sched h0]; exact hrun⟩

/-- A worker whose `UploadPart` call failed stands before its `panic`. -/
theorem failed_worker_of_inv {σ : Type} {env : Env σ} {file : σ} {sess : Session}
    {st : State σ} (hinv : Inv env file sess st) (input : UploadPartInput) (msg : String)
    (hcall : input ∈ st.uploadCalls) (herr : env.UploadPart input = .error msg) :
    ∃ w ∈ st.workers, w.pc = .failed msg ∧ input = uploadPartInput sess w := by
  have hmem := hinv.data.calls_perm.subset hcall
  obtain ⟨w, hw, rfl⟩ := List.mem_map.mp hmem
  obtain ⟨hwmem, hcalled⟩ := List.mem_filter.mp hw
  refine ⟨w, hwmem, ?_, rfl⟩
  obtain ⟨buf, pn, pc⟩ := w
  cases pc with
  | uploading => simp [Worker.called] at hcalled
  | failed m =>
    have := hinv.data.failed_err _ hwmem m rfl
    rw [herr] at this
    injection this with this
    rw [this]
  | sending etag =>
    have := hinv.data.sending_ok _ hwmem etag rfl
    rw [herr] at this
    cases this
  | counting =>
    exfalso
    have hin : completedPart env sess ⟨buf, pn, .counting⟩ ∈
        (st.workers.filter Worker.reported).map (completedPart env sess) :=
      List.mem_map.mpr ⟨_, List.mem_filter.mpr ⟨hwmem, rfl⟩, rfl⟩
    have := hinv.data.etags_perm.symm.subset hin
    obtain ⟨p, _, hp⟩ := List.mem_map.mp this
    unfold completedPart at hp
    rw [herr] at hp
    cases hp
  | exited =>
    exfalso
    have hin : completedPart env sess ⟨buf, pn, .exited⟩ ∈
        (st.workers.filter Worker.reported).map (completedPart env sess) :=
      List.mem_map.mpr ⟨_, List.mem_filter.mpr ⟨hwmem, rfl⟩, rfl⟩
    have := hinv.data.etags_perm.symm.subset hin
    obtain ⟨p, _, hp⟩ := List.mem_map.mp this
    unfold completedPart at hp
    rw [herr] at hp
    cases hp


theorem not_pastSignal_of_failed {σ : Type} {env : Env σ} {file : σ} {sess : Session}
    {st : State σ} (hinv : Inv env file sess st) (w : Worker) (hw : w ∈ st.workers)
    (msg : String) (hpc : w.pc = .failed msg) : st.main.pastEndUpload = false := by
  by_contra hne
  have hm : st.main.pastEndUpload = true := by simpa using hne
  have hp : st.collector.pastSignal = true := by rw [hinv.ctrl.signal_eq]; exact hm
  have := (signal_state_of_inv hinv (Or.inr hp)).2.2.2.1 w hw
  obtain ⟨buf, pn, pc⟩ := w
  simp only at hpc
  subst hpc
  simp [Worker.reported] at this

theorem step_failed_worker {σ : Type} (env : Env σ) (st : State σ) (i : Nat) (w : Worker)
    (msg : String) (hi : st.workers[i]? = some w) (hpc : w.pc = .failed msg)
    (hh : halted st = false) :
    step env st (.worker i) = some { st with crashed := some (.uploadPart w.pn msg) } := by
  unfold step
  rw [hh]
  simp only [Bool.false_eq_true, if_false]
  unfold stepWorker
  simp only [hi, hpc]

theorem terminal_of_halted {σ : Type} (env : Env σ) (st : State σ) (hh : halted st = true) :
    terminal env st := by
  intro a
  unfold step
  rw [hh]
  rfl

/-- C6 as stated fails in its last part, "the run ends with that error": after the `UploadPart`
call for part 1 has returned `InternalError`, one run ends in the `panic` of the worker of
part 2, whose call failed with `SlowDown`, and another ends in the `panic` of `file.Read`,
which failed with `EIO`; neither run ends with the error of part 1. -/
theorem C6_run_ends_with_another_error :
    (∃ st st', runFrom (failingEnv 1 [1, 2]) "file" "bucket"
        (List.replicate 6 Action.main ++ [Action.worker 0]) = some st ∧
      (⟨[1], "bucket", "file", 1, "upload-1"⟩ : UploadPartInput) ∈ st.uploadCalls ∧
      (failingEnv 1 [1, 2]).UploadPart ⟨[1], "bucket", "file", 1, "upload-1"⟩
        = .error "InternalError" ∧
      run (failingEnv 1 [1, 2]) st [Action.worker 1, .worker 1] = some st' ∧
      st'.crashed = some (.uploadPart 2 "SlowDown") ∧
      st'.crashed ≠ some (.uploadPart 1 "InternalError") ∧
      terminal (failingEnv 1 [1, 2]) st') ∧
    (∃ st st', runFrom (failingEnv 1 [1, 255]) "file" "bucket"
        (List.replicate 3 Action.main ++ [Action.worker 0]) = some st ∧
      (⟨[1], "bucket", "file", 1, "upload-1"⟩ : UploadPartInput) ∈ st.uploadCalls ∧
      (failingEnv 1 [1, 255]).UploadPart ⟨[1], "bucket", "file", 1, "upload-1"⟩
        = .error "InternalError" ∧
      run (failingEnv 1 [1, 255]) st [Action.main] = some st' ∧
      st'.crashed = some (.read "EIO") ∧
      st'.crashed ≠ some (.uploadPart 1 "InternalError") ∧
      terminal (failingEnv 1 [1, 255]) st') :=
  ⟨⟨_, _, rfl, by decide, rfl, rfl, by decide, by decide,
      terminal_of_halted _ _ (by decide)⟩,
    ⟨_, _, rfl, by decide, rfl, rfl, by decide, by decide,
      terminal_of_halted _ _ (by decide)⟩⟩

/-- C6, amended: once an `UploadPart` call has returned an error, in every state that the run
can reach from there no `CompleteMultipartUpload` call has been made and `uploadConcurrent` has
not returned; as long as the process has not panicked, the `panic` of the failed worker with
that error is a step it can take; if no goroutine can move, the process has died of the `panic`
of an `UploadPart` call that failed, with the error of that call, or of a `file.Read` that
failed; and it has died of the error of the given call when no read fails and no `UploadPart`
call fails otherwise. -/
theorem C6_failed_upload_never_commits {σ : Type} (env : Env σ) (localPath bucket : String)
    (st : State σ) (h : Reachable env localPath bucket st)
    (input : UploadPartInput) (msg : String) (hcall : input ∈ st.uploadCalls)
    (herr : env.UploadPart input = .error msg) (sched : List Action) (st' : State σ)
    (hrun : run env st sched = some st') :
    st'.completeCalls = [] ∧ (∀ out, st'.main ≠ .returned out) ∧
    (st'.crashed = none → ∃ i, step env st' (.worker i) =
      some { st' with crashed := some (.uploadPart input.PartNumber msg) }) ∧
    (terminal env st' → ∃ p, st'.crashed = some p ∧
      ((∃ m s, p = .read m ∧ (env.Read (makeBuf env.B) s).1.err = .other m) ∨
        ∃ w ∈ st'.workers, ∃ m, w.pc = .failed m ∧ p = .uploadPart w.pn m ∧
          env.UploadPart (uploadPartInput st'.sess w) = .error m)) ∧
    (terminal env st' →
      (∀ buf s m, (env.Read buf s).1.err ≠ .other m) →
      (∀ input' m', env.UploadPart input' = .error m' →
        input'.PartNumber = input.PartNumber ∧ m' = msg) →
      st'.crashed = some (.uploadPart input.PartNumber msg)) := by
  have hreach := reachable_run sched h hrun
  obtain ⟨file, st0, _, _, hsess, hinv⟩ := inv_reachable hreach
  rw [← hsess] at hinv
  have hcall' := uploadCalls_mono_run sched hrun input hcall
  obtain ⟨w, hw, hpc, hinput⟩ := failed_worker_of_inv hinv input msg hcall' herr
  have hnp := not_pastSignal_of_failed hinv w hw msg hpc
  have hcc : st'.completeCalls = [] := by
    by_contra hne
    have := pastEndUpload_of_completeCalls hinv hne
    rw [hnp] at this
    cases this
  have hnr : ∀ out, st'.main ≠ .returned out := ne_returned_of_not_pastEndUpload _ hnp
  have hstep : st'.crashed = none → ∃ i, step env st' (.worker i) =
      some { st' with crashed := some (.uploadPart input.PartNumber msg) } := by
    intro hcr
    obtain ⟨i, hi⟩ := List.mem_iff_getElem?.mp hw
    have hh : halted st' = false := by
      unfold halted
      rw [hcr]
      revert hnr
      cases st'.main <;> simp
    refine ⟨i, ?_⟩
    rw [step_failed_worker env st' i w msg hi hpc hh, hinput]
    rfl
  have hend : terminal env st' → ∃ p, st'.crashed = some p ∧
      ((∃ m s, p = .read m ∧ (env.Read (makeBuf env.B) s).1.err = .other m) ∨
        ∃ w ∈ st'.workers, ∃ m, w.pc = .failed m ∧ p = .uploadPart w.pn m ∧
          env.UploadPart (uploadPartInput st'.sess w) = .error m) := by
    intro hterm
    cases hcr : st'.crashed with
    | none =>
      obtain ⟨i, hi⟩ := hstep hcr
      rw [hterm (.worker i)] at hi
      cases hi
    | some p =>
      refine ⟨p, rfl, ?_⟩
      have hcause := hinv.fin.crash
      rw [hcr] at hcause
      cases p with
      | read m =>
        obtain ⟨s, pn, _, hreadErr⟩ := hcause
        exact Or.inl ⟨m, s, rfl, hreadErr⟩
      | uploadPart pn m =>
        obtain ⟨w', hw', hpn, hpc'⟩ := hcause
        exact Or.inr ⟨w', hw', m, hpc', by rw [hpn], hinv.data.failed_err w' hw' m hpc'⟩
      | completeMultipartUpload m =>
        obtain ⟨hm, _⟩ := hcause
        rw [hm] at hnp
        cases hnp
      | newSession m => exact absurd hcause (by simp [crashCause])
      | createMultipartUpload m => exact absurd hcause (by simp [crashCause])
      | openFile m => exact absurd hcause (by simp [crashCause])
      | sendOnClosedChannel => exact absurd hcause (by simp [crashCause])
  refine ⟨hcc, hnr, hstep, hend, ?_⟩
  intro hterm hnoread honly
  obtain ⟨p, hp, hkind⟩ := hend hterm
  rw [hp]
  rcases hkind with ⟨m, s, _, hreadErr⟩ | ⟨w', _, m, _, hpw, hfail⟩
  · exact absurd hreadErr (hnoread _ _ _)
  · obtain ⟨hpn, hm⟩ := honly _ _ hfail
    rw [hpw, ← hpn, hm]
    rfl

/-- The statement of C6, amended, on a file of five chunks whose third upload fails: after the
failure the four other uploads succeed and are collected, and the run ends in the `panic` of
the third worker with no `CompleteMultipartUpload` call. -/
theorem C6_failed_upload_never_commits_witness :
    ∃ st st', runFrom (demoEnv 1 [1, 2, 3, 4, 5] (some 3)) "file" "bucket"
        (List.replicate 9 Action.main ++ [Action.worker 2]) = some st ∧
      (⟨[3], "bucket", "file", 3, "upload-1"⟩ : UploadPartInput) ∈ st.uploadCalls ∧
      (demoEnv 1 [1, 2, 3, 4, 5] (some 3)).UploadPart ⟨[3], "bucket", "file", 3, "upload-1"⟩
        = .error "InternalError" ∧
      run (demoEnv 1 [1, 2, 3, 4, 5] (some 3)) st
        (List.replicate 7 Action.main ++
          [Action.worker 0, .worker 0, .collector, .collector, .worker 1, .worker 1, .collector,
            .collector, .worker 3, .worker 3, .collector, .collector, .worker 4, .worker 4,
            .collector, .collector, .main, .worker 2]) = some st' ∧
      st'.crashed = some (.uploadPart 3 "InternalError") ∧ st'.etags.length = 4 ∧
      st'.completeCalls = [] :=
  ⟨_, _, rfl, by decide, rfl, rfl, by decide, by decide,
    (C6_failed_upload_never_commits (demoEnv 1 [1, 2, 3, 4, 5] (some 3)) "file" "bucket" _
      (reachable_of_runFrom _ _ _ (List.replicate 9 Action.main ++ [Action.worker 2]) rfl)
      ⟨[3], "bucket", "file", 3, "upload-1"⟩ "InternalError" (by decide) rfl
      (List.replicate 7 Action.main ++
          [Action.worker 0, .worker 0, .collector, .collector, .worker 1, .worker 1, .collector,
            .collector, .worker 3, .worker 3, .collector, .collector, .worker 4, .worker 4,
            .collector, .collector, .main, .worker 2]) _ rfl).1⟩

/-! ## Every run ends -/

theorem potential_stepCollector {σ : Type} {env : Env σ} {file : σ} {sess : Session}
    (total : Nat) {st st' : State σ} (hinv : Inv env file sess st) (hh : halted st = false)
    (h : stepCollector st = some st') : potential total st' < potential total st := by
  obtain ⟨sess_eq, ctrl, data, loop, fin⟩ := hinv
  obtain ⟨sess0, main, workers, collector, done, etags, wc, tb, ucalls, ccalls, crashed⟩ := st
  have hcr : crashed = none := by
    unfold halted at hh
    cases crashed <;> simp_all
  subst hcr
  simp only at ctrl
  unfold stepCollector at h
  cases collector <;> simp only [] at h
  · cases h
  · split at h
    · injection h with h; subst h
      simp [potential, CollectorPc.potential]
    · cases h
  · split at h <;> injection h with h <;> subst h <;>
      simp [potential, CollectorPc.potential]
  · split at h <;> injection h with h <;> subst h <;>
      simp [potential, CollectorPc.potential]
  · obtain ⟨hm, _⟩ := ctrl.signal_main rfl
    subst hm
    simp only at h
    injection h with h; subst h
    simp [potential, CollectorPc.potential, MainPc.potential]
    omega
  · rename_i closed
    split at h
    · injection h with h; subst h
      simp only [potential, CollectorPc.potential, Option.isSome_none, Bool.false_eq_true,
        if_false]
      omega
    · injection h with h; subst h
      simp only [potential, CollectorPc.potential, Option.isSome_none, Bool.false_eq_true,
        if_false]
      omega
  · cases h

theorem potential_stepMain {σ : Type} {env : Env σ} {file : σ} {sess : Session}
    (total : Nat) {st st' : State σ} (hinv : Inv env file sess st) (hh : halted st = false)
    (hbound : st.main.slotInHand = 1 → st.workers.length < total)
    (h : stepMain env st = some st') : potential total st' < potential total st := by
  obtain ⟨sess_eq, ctrl, data, loop, fin⟩ := hinv
  obtain ⟨sess0, main, workers, collector, done, etags, wc, tb, ucalls, ccalls, crashed⟩ := st
  have hcr : crashed = none := by
    unfold halted at hh
    cases crashed <;> simp_all
  subst hcr
  simp only at ctrl hbound
  unfold stepMain at h
  cases main <;> simp only [] at h
  · split at h <;> injection h with h <;> subst h <;>
      simp [potential, MainPc.potential]
  · split at h
    · injection h with h; subst h
      simp [potential, MainPc.potential]
    · split at h
      · injection h with h; subst h
        simp [potential, MainPc.potential, CollectorPc.potential]
        omega
      · cases h
  · split at h
    · injection h with h; subst h
      simp [potential, MainPc.potential]
    · split at h
      · injection h with h; subst h
        simp [potential, MainPc.potential]
      · cases h
  · injection h with h; subst h
    have := hbound rfl
    simp [potential, MainPc.potential, WorkerPc.potential]
    omega
  · split at h
    · injection h with h; subst h
      simp [potential, MainPc.potential]
    · cases h
  · split at h <;> injection h with h <;> subst h <;>
      simp [potential, MainPc.potential]
  · cases h

theorem potential_stepWorker {σ : Type} {env : Env σ} (total : Nat) {st st' : State σ} (i : Nat)
    (hh : halted st = false) (h : stepWorker env st i = some st') :
    potential total st' < potential total st := by
  obtain ⟨sess0, main, workers, collector, done, etags, wc, tb, ucalls, ccalls, crashed⟩ := st
  have hcr : crashed = none := by
    unfold halted at hh
    cases crashed <;> simp_all
  subst hcr
  unfold stepWorker at h
  simp only at h
  split at h
  · cases h
  · rename_i w hw
    obtain ⟨l1, l2, rfl, hl1, hset⟩ := getElem?_decomp hw
    obtain ⟨buf, pn, pc⟩ := w
    cases pc <;> simp only [] at h
    · split at h <;> injection h with h <;> subst h <;>
        simp [potential, hset, WorkerPc.potential]
    · injection h with h; subst h
      simp [potential, WorkerPc.potential]
    · split at h
      · injection h with h; subst h
        simp [potential, WorkerPc.potential]
      · split at h
        · injection h with h; subst h
          simp [potential, hset, WorkerPc.potential, CollectorPc.potential]
          omega
        · cases h
    · injection h with h; subst h
      simp [potential, hset, WorkerPc.potential]
    · cases h

theorem spawn_bound {σ : Type} {env : Env σ} {file : σ} {sess : Session} {st : State σ}
    (total F : Nat) (hinv : Inv env file sess st)
    (hfin : ∀ fuel, F ≤ fuel →
      (readLoop env.B env.Read fuel file firstPartNumber).1.length = total)
    (h : st.main.slotInHand = 1) : st.workers.length < total := by
  have hloop := hinv.loop
  have hlen : (dispatched st).length = st.workers.length := by simp [dispatched]
  revert h hloop
  cases st.main <;> simp only [MainPc.slotInHand, loopLink] <;> intro h hloop
  all_goals cases h
  have h1 := hloop F
  have h2 := hfin ((dispatched st).length + 1 + F) (by omega)
  rw [h1] at h2
  simp only [List.length_append, List.length_cons] at h2
  omega

theorem potential_step {σ : Type} {env : Env σ} {file : σ} {sess : Session} {st st' : State σ}
    (total F : Nat) (a : Action) (hinv : Inv env file sess st)
    (hfin : ∀ fuel, F ≤ fuel →
      (readLoop env.B env.Read fuel file firstPartNumber).1.length = total)
    (h : step env st a = some st') : potential total st' < potential total st := by
  have hh := halted_false_of_step h
  unfold step at h
  rw [hh] at h
  simp only [Bool.false_eq_true, if_false] at h
  cases a with
  | main => exact potential_stepMain total hinv hh (spawn_bound total F hinv hfin) h
  | worker i => exact potential_stepWorker total i hh h
  | collector => exact potential_stepCollector total hinv hh h

theorem potential_run {σ : Type} {env : Env σ} {file : σ} {sess : Session}
    (total F : Nat)
    (hfin : ∀ fuel, F ≤ fuel →
      (readLoop env.B env.Read fuel file firstPartNumber).1.length = total)
    (sched : List Action) :
    ∀ {st st' : State σ}, Inv env file sess st → run env st sched = some st' →
      sched.length + potential total st' ≤ potential total st := by
  induction sched with
  | nil =>
    intro st st' _ h
    simp only [run, Option.some.injEq] at h
    subst h; simp
  | cons a rest ih =>
    intro st st' hinv h
    simp only [run] at h
    split at h
    · cases h
    · rename_i st1 hst1
      have h1 := potential_step total F a hinv hfin hst1
      have h2 := ih (inv_step a hinv hst1) h
      simp only [List.length_cons]
      omega


theorem exists_unreported (workers : List Worker)
    (h : workers.countP Worker.reported < workers.length) :
    ∃ (i : Nat) (w : Worker), workers[i]? = some w ∧ w.reported = false := by
  have hne : ¬ ∀ w ∈ workers, Worker.reported w = true := by
    intro hall
    have := List.countP_eq_length.mpr hall
    omega
  push_neg at hne
  obtain ⟨w, hw, hr⟩ := hne
  obtain ⟨i, hi⟩ := List.mem_iff_getElem?.mp hw
  exact ⟨i, w, hi, by simpa using hr⟩

theorem stepWorker_enabled {σ : Type} (env : Env σ) (st : State σ) (i : Nat) (w : Worker)
    (hi : st.workers[i]? = some w) (hw : w.reported = false) (hc : st.collector = .select) :
    ∃ st', stepWorker env st i = some st' := by
  unfold stepWorker
  simp only [hi, hc]
  obtain ⟨buf, pn, pc⟩ := w
  cases pc with
  | uploading =>
    simp only
    split <;> exact ⟨_, rfl⟩
  | failed msg => exact ⟨_, rfl⟩
  | sending etag => exact ⟨_, rfl⟩
  | counting => simp [Worker.reported] at hw
  | exited => simp [Worker.reported] at hw

theorem step_of_not_halted {σ : Type} (env : Env σ) (st : State σ) (a : Action)
    (hh : halted st = false) :
    step env st a =
      match a with
      | .main => stepMain env st
      | .worker i => stepWorker env st i
      | .collector => stepCollector st := by
  unfold step
  rw [hh]
  cases a <;> rfl

/-- No deadlock: in a state of the invariant where the process is not over, some goroutine can
take a step. -/
theorem not_terminal_of_inv {σ : Type} {env : Env σ} {file : σ} {sess : Session} {st : State σ}
    (hinv : Inv env file sess st) (hh : halted st = false) :
    ∃ a st', step env st a = some st' := by
  have hctrl := hinv.ctrl
  have hle : st.workers.countP Worker.reported ≤ st.workers.length := List.countP_le_length _
  have hslots := hctrl.slots
  -- a collector inside its loop that is not waiting can move
  have hcoll : st.collector = .release ∨ st.collector = .checkEtag ∨ st.collector = .checkEnd →
      ∃ a st', step env st a = some st' := by
    intro hc
    refine ⟨.collector, ?_⟩
    rw [step_of_not_halted env st _ hh]
    simp only
    unfold stepCollector
    rcases hc with hc | hc | hc
    · rw [hc] at hslots
      have hpos : 0 < st.workersCtrl := by
        simp only [CollectorPc.slotOwed] at hslots
        omega
      simp only [hc, hpos, if_true]
      exact ⟨_, rfl⟩
    · simp only [hc]
      split <;> exact ⟨_, rfl⟩
    · simp only [hc]
      split <;> exact ⟨_, rfl⟩
  -- with the collector waiting, a worker that has not reported can move
  have hwork : st.collector = .select → st.workers.countP Worker.reported < st.workers.length →
      ∃ a st', step env st a = some st' := by
    intro hc hlt
    obtain ⟨i, w, hi, hw⟩ := exists_unreported st.workers hlt
    obtain ⟨st', hst'⟩ := stepWorker_enabled env st i w hi hw hc
    refine ⟨.worker i, st', ?_⟩
    rw [step_of_not_halted env st _ hh]
    exact hst'
  have hmainStep : (∃ st', stepMain env st = some st') → ∃ a st', step env st a = some st' := by
    intro ⟨st', h⟩
    exact ⟨.main, st', by rw [step_of_not_halted env st _ hh]; exact h⟩
  cases hm : st.main with
  | reading s pn =>
    apply hmainStep
    unfold stepMain
    simp only [hm]
    split <;> exact ⟨_, rfl⟩
  | spawn s pn payload =>
    apply hmainStep
    unfold stepMain
    simp only [hm]
    exact ⟨_, rfl⟩
  | commit =>
    apply hmainStep
    unfold stepMain
    simp only [hm]
    split <;> exact ⟨_, rfl⟩
  | returned out =>
    unfold halted at hh
    simp [hm] at hh
  | sendEndRead =>
    have hnp : st.collector.pastSignal = false := by
      rw [hctrl.signal_eq, hm]; rfl
    cases hc : st.collector with
    | select =>
      apply hmainStep
      unfold stepMain
      simp only [hm, hc, endReadClosed]
      exact ⟨_, rfl⟩
    | release => exact hcoll (Or.inl hc)
    | checkEtag => exact hcoll (Or.inr (Or.inl hc))
    | checkEnd => exact hcoll (Or.inr (Or.inr hc))
    | signal => have := (hctrl.signal_main hc).1; rw [hm] at this; cases this
    | cleanup k => rw [hc] at hnp; cases hnp
    | exited => rw [hc] at hnp; cases hnp
  | acquire s pn payload =>
    have hnp : st.collector.pastSignal = false := by
      rw [hctrl.signal_eq, hm]; rfl
    by_cases hlt : st.workersCtrl < maxWorkers
    · apply hmainStep
      unfold stepMain
      have hcl : workersCtrlClosed st.collector = false := by
        revert hnp
        cases st.collector <;> simp [workersCtrlClosed, CollectorPc.pastSignal]
      simp only [hm, hcl, hlt, if_true]
      exact ⟨_, rfl⟩
    · cases hc : st.collector with
      | select =>
        apply hwork hc
        rw [hm, hc] at hslots
        simp only [MainPc.slotInHand, CollectorPc.slotOwed] at hslots
        have : 0 < maxWorkers := by decide
        omega
      | release => exact hcoll (Or.inl hc)
      | checkEtag => exact hcoll (Or.inr (Or.inl hc))
      | checkEnd => exact hcoll (Or.inr (Or.inr hc))
      | signal => have := (hctrl.signal_main hc).1; rw [hm] at this; cases this
      | cleanup k => rw [hc] at hnp; cases hnp
      | exited => rw [hc] at hnp; cases hnp
  | waitEndUpload =>
    have hnp : st.collector.pastSignal = false := by
      rw [hctrl.signal_eq, hm]; rfl
    cases hc : st.collector with
    | select =>
      apply hwork hc
      have hd : st.done = true := by rw [hctrl.done_eq, hm]; rfl
      have := hctrl.select_done hc hd
      rw [hm, hc] at hslots
      simp only [MainPc.slotInHand, CollectorPc.slotOwed] at hslots
      omega
    | release => exact hcoll (Or.inl hc)
    | checkEtag => exact hcoll (Or.inr (Or.inl hc))
    | checkEnd => exact hcoll (Or.inr (Or.inr hc))
    | signal =>
      refine ⟨.collector, ?_⟩
      rw [step_of_not_halted env st _ hh]
      simp only
      unfold stepCollector
      simp only [hc, hm]
      exact ⟨_, rfl⟩
    | cleanup k => rw [hc] at hnp; cases hnp
    | exited => rw [hc] at hnp; cases hnp


theorem halted_of_terminal {σ : Type} {env : Env σ} {file : σ} {sess : Session} {st : State σ}
    (hinv : Inv env file sess st) (hterm : terminal env st) : halted st = true := by
  by_contra hne
  have hh : halted st = false := by simpa using hne
  obtain ⟨a, st', hstep⟩ := not_terminal_of_inv hinv hh
  rw [hterm a] at hstep
  cases hstep

theorem exists_terminal_run {σ : Type} {env : Env σ} {file : σ} {sess : Session}
    (total F : Nat)
    (hfin : ∀ fuel, F ≤ fuel →
      (readLoop env.B env.Read fuel file firstPartNumber).1.length = total) :
    ∀ (n : Nat) (st : State σ), Inv env file sess st → potential total st ≤ n →
      ∃ sched st', run env st sched = some st' ∧ terminal env st' := by
  intro n
  induction n with
  | zero =>
    intro st hinv hn
    cases hh : halted st with
    | true => exact ⟨[], st, rfl, terminal_of_halted env st hh⟩
    | false =>
      obtain ⟨a, st', hstep⟩ := not_terminal_of_inv hinv hh
      have := potential_step total F a hinv hfin hstep
      omega
  | succ n ih =>
    intro st hinv hn
    cases hh : halted st with
    | true => exact ⟨[], st, rfl, terminal_of_halted env st hh⟩
    | false =>
      obtain ⟨a, st1, hstep⟩ := not_terminal_of_inv hinv hh
      have hlt := potential_step total F a hinv hfin hstep
      obtain ⟨sched, st', hrun, hterm⟩ := ih st1 (inv_step a hinv hstep) (by omega)
      refine ⟨a :: sched, st', ?_, hterm⟩
      simp only [run, hstep]
      exact hrun

/-- When no call fails, the process does not panic. -/
theorem not_crashed_of_inv {σ : Type} {env : Env σ} {file : σ} {sess : Session} {st : State σ}
    (hinv : Inv env file sess st)
    (hread : ∀ buf s msg, (env.Read buf s).1.err ≠ .other msg)
    (hup : ∀ input, ∃ etag, env.UploadPart input = .ok etag)
    (hcomp : ∀ input, ∃ out, env.CompleteMultipartUpload input = .ok out) :
    st.crashed = none := by
  have hcause := hinv.fin.crash
  cases hcr : st.crashed with
  | none => rfl
  | some p =>
    exfalso
    rw [hcr] at hcause
    cases p with
    | read m =>
      obtain ⟨s, pn, _, herr⟩ := hcause
      exact hread _ _ _ herr
    | uploadPart pn m =>
      obtain ⟨w, hw, _, hpc⟩ := hcause
      have h1 := hinv.data.failed_err w hw m hpc
      obtain ⟨etag, h2⟩ := hup (uploadPartInput sess w)
      rw [h1] at h2
      cases h2
    | completeMultipartUpload m =>
      obtain ⟨_, hres⟩ := hcause
      unfold commitStep at hres
      simp only at hres
      split at hres
      · rename_i herr
        obtain ⟨out, h2⟩ := hcomp _
        rw [herr] at h2
        cases h2
      · cases hres
    | newSession m => exact hcause
    | createMultipartUpload m => exact hcause
    | openFile m => exact hcause
    | sendOnClosedChannel => exact hcause

theorem completedPart_pn {σ : Type} (env : Env σ) (sess : Session) (w : Worker)
    (p : CompletedPart) (h : completedPart env sess w = some p) : p.PartNumber = w.pn := by
  unfold completedPart at h
  split at h
  · injection h with h
    rw [← h]
  · cases h

/-- The part numbers in `etags` are, up to order, those of the workers that have reported. -/
theorem etags_pn_perm {σ : Type} {env : Env σ} {file : σ} {sess : Session} {st : State σ}
    (hinv : Inv env file sess st) :
    (st.etags.map CompletedPart.PartNumber).Perm
      ((st.workers.filter Worker.reported).map Worker.pn) := by
  have hperm := hinv.data.etags_perm
  have h1 := hperm.map (fun o : Option CompletedPart => (o.map CompletedPart.PartNumber).getD 0)
  simp only [List.map_map] at h1
  have h2 : (st.workers.filter Worker.reported).map
      ((fun o : Option CompletedPart => (o.map CompletedPart.PartNumber).getD 0) ∘
        completedPart env sess) = (st.workers.filter Worker.reported).map Worker.pn := by
    apply List.map_congr_left
    intro w hw
    have hin : completedPart env sess w ∈
        (st.workers.filter Worker.reported).map (completedPart env sess) :=
      List.mem_map.mpr ⟨w, hw, rfl⟩
    obtain ⟨p, _, hp⟩ := List.mem_map.mp (hperm.symm.subset hin)
    simp only [Function.comp, ← hp, Option.map_some', Option.getD_some]
    exact completedPart_pn env sess w p hp.symm
  rw [h2] at h1
  have h3 : st.etags.map
      ((fun o : Option CompletedPart => (o.map CompletedPart.PartNumber).getD 0) ∘ some)
      = st.etags.map CompletedPart.PartNumber := by
    apply List.map_congr_left
    intro p _
    rfl
  rw [h3] at h1
  exact h1


/-! ## The commit -/

theorem completeCalls_of_inv {σ : Type} {env : Env σ} {file : σ} {sess : Session} {st : State σ}
    (hinv : Inv env file sess st) :
    st.completeCalls.length ≤ 1 ∧
    ∀ call ∈ st.completeCalls,
      call = { Bucket := sess.bucket, Key := sess.keyName,
               Parts := sortSlice lessPart st.etags, UploadId := sess.uploadId } ∧
      st.collector.pastSignal = true := by
  have hc := hinv.fin.complete
  rw [commitStep_calls] at hc
  constructor
  · rw [hc]
    split <;> simp
  · intro call hcall
    have hne : st.completeCalls ≠ [] := List.ne_nil_of_mem hcall
    have hpast := pastEndUpload_of_completeCalls hinv hne
    refine ⟨?_, by rw [hinv.ctrl.signal_eq]; exact hpast⟩
    rw [hc] at hcall
    split at hcall
    · simpa using hcall
    · cases hcall

/-- The part numbers of a commit: those of the dispatched chunks, in non-decreasing order. -/
theorem commit_parts_of_inv {σ : Type} {env : Env σ} {file : σ} {sess : Session} {st : State σ}
    (hinv : Inv env file sess st) (call : CompleteMultipartUploadInput)
    (hcall : call ∈ st.completeCalls) :
    (call.Parts.map CompletedPart.PartNumber).Perm ((dispatched st).map Chunk.pn) ∧
    (call.Parts.map CompletedPart.PartNumber).Pairwise (fun a b => a ≤ b) ∧
    (call.Parts.map some).Perm (st.workers.map (completedPart env sess)) := by
  obtain ⟨hcallEq, hpast⟩ := (completeCalls_of_inv hinv).2 call hcall
  have hall := (signal_state_of_inv hinv (Or.inr hpast)).2.2.2.1
  have hfilter : st.workers.filter Worker.reported = st.workers :=
    List.filter_eq_self.mpr hall
  have hparts : call.Parts = sortSlice lessPart st.etags := by rw [hcallEq]
  refine ⟨?_, ?_, ?_⟩
  · rw [hparts]
    refine ((sortSlice_perm lessPart st.etags).map _).trans ?_
    have := etags_pn_perm hinv
    rw [hfilter] at this
    simpa [dispatched, Worker.chunk] using this
  · rw [hparts, List.pairwise_map]
    exact sortSlice_lessPart_sorted st.etags
  · rw [hparts]
    refine ((sortSlice_perm lessPart st.etags).map _).trans ?_
    have := hinv.data.etags_perm
    rw [hfilter] at this
    exact this

theorem range_succ_sorted (N : Nat) :
    ((List.range N).map (fun (i : Nat) => (i : Int) + 1)).Pairwise (fun a b => a ≤ b) := by
  rw [List.pairwise_map]
  refine (List.pairwise_lt_range N).imp ?_
  intro a b hab
  omega

theorem potential_start {σ : Type} (env : Env σ) (localPath bucket : String) (st0 : State σ)
    (total : Nat) (h : start env localPath bucket = .ok st0) :
    potential total st0 = 9 * total + 12 := by
  unfold start at h
  simp only at h
  split at h
  · cases h
  · split at h
    · cases h
    · split at h
      · cases h
      · injection h with h
        subst h
        simp [potential, MainPc.potential, CollectorPc.potential]


theorem osFileRead_no_error (buf rest : List Byte) (msg : String) :
    (osFileRead buf rest).1.err ≠ .other msg := by
  unfold osFileRead
  split
  · simp
  · split <;> simp

/-- C2: on a file of `S` bytes read in blocks of `B > 0` bytes, when no call fails, the process
never panics; it has made at most one `CompleteMultipartUpload` call in any state it can reach,
with the part numbers `1, 2, ..., N` in this order, `N = ceil(S/B)` (no part for an empty file);
whatever the schedule, the run goes on to a state where no goroutine can move, within
`9 * N + 12` steps, and in every such state `uploadConcurrent` has returned after exactly one
`CompleteMultipartUpload` call. -/
theorem C2_commit_exactly_once_with_parts_1_to_N (env : Env (List Byte))
    (localPath bucket : String) (content : List Byte)
    (hRead : env.Read = osFileRead) (hB : 0 < env.B) (hS : content.length < 2 ^ 63)
    (hsession : env.NewSession = .ok ())
    (hcreate : ∃ uploadId,
      env.CreateMultipartUpload { Bucket := bucket, Key := env.Base localPath } = .ok uploadId)
    (hopen : env.Open localPath = .ok content)
    (hup : ∀ input, ∃ etag, env.UploadPart input = .ok etag)
    (hcomp : ∀ input, ∃ out, env.CompleteMultipartUpload input = .ok out) :
    (∃ st0, start env localPath bucket = .ok st0) ∧
    ∀ st, Reachable env localPath bucket st →
      st.crashed = none ∧ st.completeCalls.length ≤ 1 ∧
      (∀ call ∈ st.completeCalls,
        call.Parts.map CompletedPart.PartNumber =
          (List.range ⌈(content.length : ℚ) / (env.B : ℚ)⌉₊).map (fun (i : Nat) => (i : Int) + 1) ∧
        (content.length = 0 → call.Parts = [])) ∧
      (terminal env st → ∃ call out, st.completeCalls = [call] ∧ st.main = .returned out) ∧
      (∃ sched st', run env st sched = some st' ∧ terminal env st') ∧
      (∀ sched st', run env st sched = some st' →
        sched.length ≤ 9 * ⌈(content.length : ℚ) / (env.B : ℚ)⌉₊ + 12) := by
  rw [← ceilDiv_eq_ceil _ _ hB]
  have hfin : ∀ fuel, content.length + 1 ≤ fuel →
      (readLoop env.B env.Read fuel content firstPartNumber).1.length
        = ceilDiv content.length env.B := by
    intro fuel hfuel
    rw [hRead]
    exact readLoop_osFile_length env.B hB fuel content _ (by omega)
  have hread : ∀ buf s msg, (env.Read buf s).1.err ≠ .other msg := by
    intro buf s msg
    rw [hRead]
    exact osFileRead_no_error buf s msg
  constructor
  · obtain ⟨uploadId, hcreate⟩ := hcreate
    unfold start
    simp only [hsession, hcreate, hopen]
    exact ⟨_, rfl⟩
  intro st hreach
  obtain ⟨file, st0, hopen', hstart, _, hinv⟩ := inv_reachable hreach
  have hfile : file = content := by
    rw [hopen] at hopen'
    injection hopen' with h
    exact h.symm
  subst hfile
  have hcr := not_crashed_of_inv hinv hread hup hcomp
  have hcalls := completeCalls_of_inv hinv
  have hparts : ∀ call ∈ st.completeCalls,
      call.Parts.map CompletedPart.PartNumber =
        (List.range (ceilDiv file.length env.B)).map (fun (i : Nat) => (i : Int) + 1) := by
    intro call hcall
    obtain ⟨hperm, hsorted, _⟩ := commit_parts_of_inv hinv call hcall
    obtain ⟨_, hpast⟩ := hcalls.2 call hcall
    have hloop := (signal_state_of_inv hinv (Or.inr hpast)).2.2.2.2.2 file.length
    have hnum := readLoop_osFile_numbers env.B file ((dispatched st).length + 1 + file.length)
      hB hS (by omega)
    rw [← hRead, hloop] at hnum
    rw [hnum] at hperm
    exact List.eq_of_perm_of_sorted hperm hsorted (range_succ_sorted _)
  refine ⟨hcr, hcalls.1, ?_, ?_, ?_, ?_⟩
  · intro call hcall
    refine ⟨hparts call hcall, ?_⟩
    intro h0
    have := hparts call hcall
    rw [h0, ceilDiv_zero env.B hB] at this
    simpa using this
  · intro hterm
    have hh := halted_of_terminal hinv hterm
    unfold halted at hh
    rw [hcr] at hh
    cases hm : st.main with
    | returned out =>
      have hc := hinv.fin.complete
      rw [hm, commitStep_calls] at hc
      simp only [committed, if_true] at hc
      exact ⟨_, out, hc, rfl⟩
    | reading s pn => rw [hm] at hh; simp at hh
    | sendEndRead => rw [hm] at hh; simp at hh
    | acquire s pn payload => rw [hm] at hh; simp at hh
    | spawn s pn payload => rw [hm] at hh; simp at hh
    | waitEndUpload => rw [hm] at hh; simp at hh
    | commit => rw [hm] at hh; simp at hh
  · exact exists_terminal_run (ceilDiv file.length env.B) (file.length + 1) hfin _ st hinv
      (Nat.le_refl _)
  · intro sched st' hrun
    obtain ⟨st0', s0, hstart', hrun0⟩ := hreach
    have hq : st0' = st0 := by
      rw [hstart] at hstart'
      injection hstart' with h
      exact h.symm
    subst hq
    obtain ⟨file', hopen0, _, _, hinv0⟩ := inv_start env localPath bucket st0' hstart
    have hq' : file' = file := by
      rw [hopen0] at hopen'
      injection hopen' with h
    subst hq'
    have h0 := potential_run (ceilDiv file'.length env.B) (file'.length + 1) hfin s0 hinv0 hrun0
    have h1 := potential_run (ceilDiv file'.length env.B) (file'.length + 1) hfin sched hinv hrun
    have h2 := potential_start env localPath bucket st0' (ceilDiv file'.length env.B) hstart
    omega

/-- The statement of C2 on a file of five chunks whose uploads finish in the order 5, 3, 1, 4,
2: the one `CompleteMultipartUpload` call has the parts 1 to 5 in order. -/
theorem C2_commit_exactly_once_with_parts_1_to_N_witness :
    ∃ st, runFrom (demoEnv 1 [1, 2, 3, 4, 5] none) "file" "bucket"
        (List.replicate 16 Action.main ++
          [Action.worker 4, .worker 4, .collector, .collector,
            .worker 2, .worker 2, .collector, .collector,
            .worker 0, .worker 0, .collector, .collector,
            .worker 3, .worker 3, .collector, .collector,
            .worker 1, .worker 1, .collector, .collector,
            .main, .collector, .collector, .main]) = some st ∧
      st.etags.map CompletedPart.PartNumber = [5, 3, 1, 4, 2] ∧
      st.completeCalls.map (fun call => call.Parts.map CompletedPart.PartNumber)
        = [[1, 2, 3, 4, 5]] ∧
      st.crashed = none :=
  ⟨_, rfl, by decide, by decide,
    ((C2_commit_exactly_once_with_parts_1_to_N (demoEnv 1 [1, 2, 3, 4, 5] none) "file" "bucket"
      [1, 2, 3, 4, 5] rfl (by decide) (by decide) rfl ⟨_, rfl⟩ rfl (fun _ => ⟨_, rfl⟩)
      (fun _ => ⟨_, rfl⟩)).2 _
      (reachable_of_runFrom _ _ _
        (List.replicate 16 Action.main ++
          [Action.worker 4, .worker 4, .collector, .collector,
            .worker 2, .worker 2, .collector, .collector,
            .worker 0, .worker 0, .collector, .collector,
            .worker 3, .worker 3, .collector, .collector,
            .worker 1, .worker 1, .collector, .collector,
            .main, .collector, .collector, .main]) rfl)).1⟩


/-! ## Requests and parts -/

theorem completedPart_some {σ : Type} (env : Env σ) (sess : Session) (w : Worker)
    (p : CompletedPart) (h : completedPart env sess w = some p) :
    env.UploadPart (uploadPartInput sess w) = .ok p.ETag ∧ p.PartNumber = w.pn := by
  unfold completedPart at h
  split at h
  · rename_i etag hok
    injection h with h
    rw [← h]
    exact ⟨hok, rfl⟩
  · cases h

theorem called_of_reported (w : Worker) (h : w.reported = true) : w.called = true := by
  obtain ⟨buf, pn, pc⟩ := w
  cases pc <;> simp_all [Worker.reported, Worker.called]

/-- C10: in every reachable state, each `UploadPart` request made is the request of one chunk
dispatched: it carries the `UploadId` that `CreateMultipartUpload` returned, the bucket, the key,
and the part number and payload of that chunk; and the part list of a `CompleteMultipartUpload`
call holds, up to order, one part for each chunk dispatched, made of the part number of the
chunk and of the ETag that `UploadPart` returned for the request of that very chunk. -/
theorem C10_requests_and_parts_paired {σ : Type} (env : Env σ) (localPath bucket : String)
    (st : State σ) (h : Reachable env localPath bucket st) :
    st.sess.bucket = bucket ∧ st.sess.keyName = env.Base localPath ∧
    env.CreateMultipartUpload { Bucket := bucket, Key := env.Base localPath }
      = .ok st.sess.uploadId ∧
    st.uploadCalls.Perm ((st.workers.filter Worker.called).map (uploadPartInput st.sess)) ∧
    (∀ req ∈ st.uploadCalls, ∃ c ∈ dispatched st,
      req = { Body := c.payload, Bucket := bucket, Key := env.Base localPath,
              PartNumber := c.pn, UploadId := st.sess.uploadId }) ∧
    (∀ call ∈ st.completeCalls,
      call.Bucket = bucket ∧ call.Key = env.Base localPath ∧
      call.UploadId = st.sess.uploadId ∧
      (call.Parts.map some).Perm (st.workers.map (completedPart env st.sess)) ∧
      (∀ part ∈ call.Parts, ∃ req ∈ st.uploadCalls,
        req.PartNumber = part.PartNumber ∧ env.UploadPart req = .ok part.ETag ∧
        ∃ c ∈ dispatched st, c.pn = part.PartNumber ∧ c.payload = req.Body)) := by
  obtain ⟨file, st0, _, hstart, hsess, hinv⟩ := inv_reachable h
  obtain ⟨hb, hk, hc⟩ := sess_of_start env localPath bucket st0 hstart
  rw [← hsess] at hinv hb hk hc
  refine ⟨hb, hk, hc, hinv.data.calls_perm, ?_, ?_⟩
  · intro req hreq
    obtain ⟨w, hw, rfl⟩ := List.mem_map.mp (hinv.data.calls_perm.subset hreq)
    refine ⟨w.chunk, List.mem_map.mpr ⟨w, (List.mem_filter.mp hw).1, rfl⟩, ?_⟩
    simp only [uploadPartInput, Worker.chunk, hb, hk]
  · intro call hcall
    obtain ⟨hcallEq, hpast⟩ := (completeCalls_of_inv hinv).2 call hcall
    obtain ⟨_, _, hperm⟩ := commit_parts_of_inv hinv call hcall
    have hall := (signal_state_of_inv hinv (Or.inr hpast)).2.2.2.1
    refine ⟨by rw [hcallEq]; exact hb, by rw [hcallEq]; exact hk, by rw [hcallEq], hperm, ?_⟩
    intro part hpart
    have hin : some part ∈ call.Parts.map some := List.mem_map.mpr ⟨part, hpart, rfl⟩
    obtain ⟨w, hw, hcp⟩ := List.mem_map.mp (hperm.subset hin)
    obtain ⟨hok, hpn⟩ := completedPart_some env st.sess w part hcp
    have hreq : uploadPartInput st.sess w ∈ st.uploadCalls := by
      apply hinv.data.calls_perm.symm.subset
      exact List.mem_map.mpr ⟨w, List.mem_filter.mpr ⟨hw, called_of_reported w (hall w hw)⟩, rfl⟩
    refine ⟨_, hreq, hpn.symm, hok, w.chunk, List.mem_map.mpr ⟨w, hw, rfl⟩, hpn.symm, rfl⟩

/-- The statement of C10 after a run of three chunks whose uploads finish in the order 3, 1, 2:
the parts committed pair each part number with the ETag of its own payload. -/
theorem C10_requests_and_parts_paired_witness :
    ∃ st, runFrom (demoEnv 1 [65, 66, 67] none) "file" "bucket"
        (List.replicate 10 Action.main ++
          [Action.worker 2, .worker 2, .collector, .collector,
            .worker 0, .worker 0, .collector, .collector,
            .worker 1, .worker 1, .collector, .collector,
            .main, .collector, .collector, .main]) = some st ∧
      st.etags = [⟨"C", 3⟩, ⟨"A", 1⟩, ⟨"B", 2⟩] ∧
      st.completeCalls =
        [⟨"bucket", "file", [⟨"A", 1⟩, ⟨"B", 2⟩, ⟨"C", 3⟩], "upload-1"⟩] ∧
      st.sess.bucket = "bucket" :=
  ⟨_, rfl, by decide, by decide,
    (C10_requests_and_parts_paired (demoEnv 1 [65, 66, 67] none) "file" "bucket" _
      (reachable_of_runFrom _ _ _
        (List.replicate 10 Action.main ++
          [Action.worker 2, .worker 2, .collector, .collector,
            .worker 0, .worker 0, .collector, .collector,
            .worker 1, .worker 1, .collector, .collector,
            .main, .collector, .collector, .main]) rfl)).1⟩

end UploadS3
